import Mathlib

/-!
A shallow embedding of `scripts/backfill_pm25.py` and proofs about it.

The script reads an existing county-level PM2.5 dataset, computes state and
national mean fallback values with Python `decimal.Decimal` arithmetic, fills
every county of a reference list using a three-tier fallback policy, and
rewrites the dataset.  Values are modelled as exact rationals (plus the
non-finite `Decimal` values `NaN`, `sNaN`, `Infinity`, `-Infinity`); string
parsing follows the numeric-string grammar of the `decimal` module, and
formatting follows `value.quantize(Decimal('0.001'), rounding=ROUND_HALF_UP)`
rendered with `:f`.  Errors are modelled with `Except`.
-/

set_option maxHeartbeats 1000000
set_option maxRecDepth 2000

/-- Error kinds of the script.  `invalidValue` is the `ValueError` raised by
`parse_decimal` (carrying the offending raw string), `emptyDataset` is the
`ValueError` raised when the loaded dataset holds no usable value, and
`decimalOp` stands for the trapped `decimal` signals (`InvalidOperation`,
`DivisionByZero`) that would propagate uncaught. -/
inductive Err where
  | invalidValue (raw : String)
  | emptyDataset
  | decimalOp
deriving DecidableEq, Repr

instance {ε α : Type _} [DecidableEq ε] [DecidableEq α] : DecidableEq (Except ε α) := fun a b =>
  match a, b with
  | .error e, .error f =>
    if h : e = f then .isTrue (congrArg _ h) else .isFalse (fun c => h (Except.error.inj c))
  | .error _, .ok _ => .isFalse (fun c => Except.noConfusion c)
  | .ok _, .error _ => .isFalse (fun c => Except.noConfusion c)
  | .ok x, .ok y =>
    if h : x = y then .isTrue (congrArg _ h) else .isFalse (fun c => h (Except.ok.inj c))

/-- A Python `decimal.Decimal` value: a finite value (an exact rational), a
quiet `NaN`, a signaling `NaN`, or a signed infinity.  Negative zero and NaN
diagnostic payloads are collapsed. -/
inductive PyDec where
  | fin (q : ℚ)
  | nan
  | snan
  | inf
  | negInf
deriving DecidableEq, Repr

def PyDec.isFinite : PyDec → Bool
  | .fin _ => true
  | _ => false

def PyDec.toRat : PyDec → ℚ
  | .fin q => q
  | _ => 0

/-!
Exact rational arithmetic, written through `mkRat` on numerators and
denominators so that the kernel can evaluate it (the `Rat` field operations
of the library are `@[irreducible]`).  Each operation is proved equal to the
corresponding field operation on `ℚ` below.
-/

def qAdd (a b : ℚ) : ℚ := mkRat (a.num * b.den + b.num * a.den) (a.den * b.den)

def qMul (a b : ℚ) : ℚ := mkRat (a.num * b.num) (a.den * b.den)

def qNeg (a : ℚ) : ℚ := mkRat (-a.num) a.den

def qInv (a : ℚ) : ℚ :=
  if 0 ≤ a.num then mkRat a.den a.num.natAbs else mkRat (-(a.den : ℤ)) a.num.natAbs

def qDiv (a b : ℚ) : ℚ := qMul a (qInv b)

/-- `a ^ e` for an integer exponent. -/
def qZpow (a : ℚ) : ℤ → ℚ
  | .ofNat n => a ^ n
  | .negSucc n => qInv (a ^ (n + 1))

/-- ASCII decimal digit test (the digits accepted by the `decimal` grammar). -/
def isDigitCh (c : Char) : Bool :=
  c = '0' || c = '1' || c = '2' || c = '3' || c = '4' ||
  c = '5' || c = '6' || c = '7' || c = '8' || c = '9'

/-- Numeric value of an ASCII digit. -/
def charVal (c : Char) : Nat :=
  if c = '0' then 0 else if c = '1' then 1 else if c = '2' then 2
  else if c = '3' then 3 else if c = '4' then 4 else if c = '5' then 5
  else if c = '6' then 6 else if c = '7' then 7 else if c = '8' then 8 else 9

/-- The ASCII digit of `n % 10`-style small numbers (callers keep `n < 10`). -/
def digitCh (n : Nat) : Char :=
  if n = 0 then '0' else if n = 1 then '1' else if n = 2 then '2'
  else if n = 3 then '3' else if n = 4 then '4' else if n = 5 then '5'
  else if n = 6 then '6' else if n = 7 then '7' else if n = 8 then '8' else '9'

/-- Value of a digit string, most significant digit first. -/
def digitsVal (cs : List Char) : Nat :=
  cs.foldl (fun a c => 10 * a + charVal c) 0

/-- Python `str.strip()` whitespace (ASCII part). -/
def pyWsB (c : Char) : Bool :=
  c = ' ' || c = '\t' || c = '\n' || c = '\r' || c = '\x0b' || c = '\x0c'

/-- Lower-casing of the letters occurring in the special values `Infinity`,
`Inf`, `NaN`, `sNaN` (the grammar is case-insensitive). -/
def lowerSpec (c : Char) : Char :=
  if c = 'I' then 'i' else if c = 'N' then 'n' else if c = 'F' then 'f'
  else if c = 'T' then 't' else if c = 'Y' then 'y' else if c = 'S' then 's'
  else if c = 'A' then 'a' else c

def pyStripList (cs : List Char) : List Char :=
  ((cs.dropWhile pyWsB).reverse.dropWhile pyWsB).reverse

/-- Python `str.strip()`. -/
def pyStrip (s : String) : String := String.mk (pyStripList s.data)

/-- Python `str.zfill(w)`: pad with `'0'` on the left to width `w`, keeping a
leading sign in place. -/
def zfill (s : String) (w : Nat) : String :=
  if w ≤ s.length then s
  else
    match s.data with
    | [] => String.mk (List.replicate (w - s.length) '0')
    | c :: rest =>
      if c = '+' ∨ c = '-' then String.mk (c :: (List.replicate (w - s.length) '0' ++ rest))
      else String.mk (List.replicate (w - s.length) '0' ++ (c :: rest))

/-- Numeric part of the `decimal` string grammar, after sign removal:
`digits* ('.' digits*)? ([eE] sign? digits+)?` with at least one digit before
the exponent part. -/
def parseNumeric (neg : Bool) (cs : List Char) : Option PyDec :=
  let int := cs.takeWhile isDigitCh
  let r1 := cs.dropWhile isDigitCh
  let frac := if r1.head? = some '.' then r1.tail.takeWhile isDigitCh else []
  let r2 := if r1.head? = some '.' then r1.tail.dropWhile isDigitCh else r1
  if int = [] ∧ frac = [] then none
  else
    let mkVal : ℤ → Option PyDec := fun e =>
      let mag : ℚ :=
        qMul (qDiv ((digitsVal int * 10 ^ frac.length + digitsVal frac : ℕ) : ℚ)
          ((10 : ℚ) ^ frac.length)) (qZpow 10 e)
      some (.fin (if neg then qNeg mag else mag))
    if r2 = [] then mkVal 0
    else if r2.head? = some 'e' ∨ r2.head? = some 'E' then
      let r3 := r2.tail
      let esign : Bool := r3.head? = some '-'
      let r4 := if r3.head? = some '+' ∨ r3.head? = some '-' then r3.tail else r3
      let ed := r4.takeWhile isDigitCh
      if ed = [] then none
      else if r4.dropWhile isDigitCh = [] then
        mkVal (if esign then -(digitsVal ed : ℤ) else (digitsVal ed : ℤ))
      else none
    else none

/-- The alternation of the `decimal` grammar after the optional sign:
a number, an infinity, or a (possibly signaling) NaN with digit payload. -/
def parseAfterSign (neg : Bool) (cs : List Char) : Option PyDec :=
  let lc := cs.map lowerSpec
  if lc = ['i', 'n', 'f'] ∨ lc = ['i', 'n', 'f', 'i', 'n', 'i', 't', 'y'] then
    some (if neg then .negInf else .inf)
  else if lc.take 3 = ['n', 'a', 'n'] then
    (if (lc.drop 3).all isDigitCh then some .nan else none)
  else if lc.take 4 = ['s', 'n', 'a', 'n'] then
    (if (lc.drop 4).all isDigitCh then some .snan else none)
  else parseNumeric neg cs

/-- `Decimal(value)` construction from a string: strip whitespace, drop
underscores, take an optional sign, then match the numeric alternation.
Returns `none` where the constructor would raise `InvalidOperation`. -/
def parseDecChars (cs0 : List Char) : Option PyDec :=
  let cs1 := (pyStripList cs0).filter (fun c => ¬ (c = '_'))
  if cs1.head? = some '+' then parseAfterSign false cs1.tail
  else if cs1.head? = some '-' then parseAfterSign true cs1.tail
  else parseAfterSign false cs1

/-- `parse_decimal` of the script: `Decimal(value)`, with failures re-raised
as `ValueError` (modelled by `Err.invalidValue`). -/
def parse_decimal (value : String) : Except Err PyDec :=
  match parseDecChars value.data with
  | some v => .ok v
  | none => .error (.invalidValue value)

/-- Floor of a nonnegative rational, computed on the reduced numerator and
denominator with natural division (kernel-reducible, unlike `Int.floor`). -/
def floorNonneg (x : ℚ) : ℤ :=
  Int.ofNat (x.num.toNat / x.den)

/-- Rounding to the nearest integer with ties away from zero
(`ROUND_HALF_UP`). -/
def roundHalfUpZ (x : ℚ) : ℤ :=
  if 0 ≤ x then floorNonneg (qAdd x (mkRat 1 2)) else -floorNonneg (qAdd (qNeg x) (mkRat 1 2))

/-- Fuelled digit expansion of a natural number, most significant first. -/
def natToCharsAux : Nat → Nat → List Char
  | 0, _ => []
  | fuel + 1, n => if n = 0 then [] else natToCharsAux fuel (n / 10) ++ [digitCh (n % 10)]

/-- Decimal digit string of a natural number. -/
def natToChars (n : Nat) : List Char :=
  if n = 0 then ['0'] else natToCharsAux n n

/-- The three fractional digits of a value already scaled by 1000. -/
def pad3 (m : Nat) : List Char :=
  [digitCh (m / 100 % 10), digitCh (m / 10 % 10), digitCh (m % 10)]

/-- Fixed-point rendering of the integer `n` scaled down by 1000, with
exactly three digits after the decimal point (the `:f` rendering of a
`Decimal` quantized to `0.001`). -/
def renderScaled (n : ℤ) : String :=
  String.mk ((if n < 0 then ['-'] else []) ++
    natToChars (n.natAbs / 1000) ++ '.' :: pad3 (n.natAbs % 1000))

/-- Rendering of the finite value `q` after half-up rounding at 3 fractional
digits. -/
def renderFixed3 (q : ℚ) : String :=
  renderScaled (roundHalfUpZ (qMul q 1000))

/-- `format_decimal` of the script:
`f"{value.quantize(Decimal('0.001'), rounding=ROUND_HALF_UP):f}"`.
A quiet NaN passes `quantize` unchanged and renders as `"NaN"`; an infinity
or signaling NaN raises `InvalidOperation`. -/
def format_decimal : PyDec → Except Err String
  | .fin q => .ok (renderFixed3 q)
  | .nan => .ok "NaN"
  | .snan => .error .decimalOp
  | .inf => .error .decimalOp
  | .negInf => .error .decimalOp

/-- `Decimal` addition (as used by `sum`), with the default-context treatment
of the special values: signaling NaN and `Inf + (-Inf)` trap, quiet NaN
propagates. -/
def PyDec.add : PyDec → PyDec → Except Err PyDec
  | .snan, _ => .error .decimalOp
  | _, .snan => .error .decimalOp
  | .nan, _ => .ok .nan
  | _, .nan => .ok .nan
  | .inf, .negInf => .error .decimalOp
  | .negInf, .inf => .error .decimalOp
  | .inf, _ => .ok .inf
  | _, .inf => .ok .inf
  | .negInf, _ => .ok .negInf
  | _, .negInf => .ok .negInf
  | .fin a, .fin b => .ok (.fin (qAdd a b))

/-- `Decimal` division, with the default-context treatment of special values
and zero divisors. -/
def PyDec.div : PyDec → PyDec → Except Err PyDec
  | .snan, _ => .error .decimalOp
  | _, .snan => .error .decimalOp
  | .nan, _ => .ok .nan
  | _, .nan => .ok .nan
  | .inf, .inf => .error .decimalOp
  | .inf, .negInf => .error .decimalOp
  | .negInf, .inf => .error .decimalOp
  | .negInf, .negInf => .error .decimalOp
  | .inf, .fin b => .ok (if b < 0 then .negInf else .inf)
  | .negInf, .fin b => .ok (if b < 0 then .inf else .negInf)
  | .fin _, .inf => .ok (.fin 0)
  | .fin _, .negInf => .ok (.fin 0)
  | .fin a, .fin b => if b = 0 then .error .decimalOp else .ok (.fin (qDiv a b))

/-- Left fold of `Decimal` addition, i.e. `sum(values, start=acc)`. -/
def sumFrom (acc : PyDec) : List PyDec → Except Err PyDec
  | [] => .ok acc
  | v :: vs =>
    match acc.add v with
    | .error e => .error e
    | .ok a => sumFrom a vs

/-- `sum(values, start=Decimal('0'))`. -/
def sumDec (l : List PyDec) : Except Err PyDec := sumFrom (.fin 0) l

/-- Code-point lexicographic `≤` on character lists: the order Python's
`sorted` uses on strings.  (The library order on `String` is defined through
iterators and does not evaluate; this one is proved equivalent below.) -/
def charListLeB : List Char → List Char → Bool
  | [], _ => true
  | _ :: _, [] => false
  | c :: cs, d :: ds => if c = d then charListLeB cs ds else decide (c < d)

/-- Python string `<=` as a decidable relation. -/
def strLe (a b : String) : Prop := charListLeB a.data b.data = true

instance : DecidableRel strLe := fun a b =>
  inferInstanceAs (Decidable (charListLeB a.data b.data = true))

/-- First two characters of an identifier: the owning state (`fips[:2]`). -/
def stateOf (fips : String) : String := String.mk (fips.data.take 2)

/-- A CSV row of the existing-measurements file, restricted to the two fields
the script reads (`row.get('fips')`, `row.get('pm25_mean_2016_2024')`);
a missing field is `none`. -/
structure Row where
  fips : Option String
  pm25_mean_2016_2024 : Option String
deriving DecidableEq, Repr

/-- The three aggregation structures built by `load_existing_pm`:
the per-county map, the per-state value lists (a `defaultdict(list)`), and
the national value list. -/
structure PmData where
  pm_values : List (String × PyDec)
  state_values : List (String × List PyDec)
  national_values : List PyDec
deriving DecidableEq, Repr

/-- `pm_values[fips] = value`: overwrite the binding if the key is present,
else append it (Python dict insertion order). -/
def setVal : List (String × PyDec) → String → PyDec → List (String × PyDec)
  | [], k, v => [(k, v)]
  | (k0, v0) :: rest, k, v =>
    if k0 = k then (k, v) :: rest else (k0, v0) :: setVal rest k v

/-- `state_values[state].append(value)` on a `defaultdict(list)`. -/
def appendState : List (String × List PyDec) → String → PyDec → List (String × List PyDec)
  | [], k, v => [(k, [v])]
  | (k0, vs) :: rest, k, v =>
    if k0 = k then (k0, vs ++ [v]) :: rest else (k0, vs) :: appendState rest k v

/-- Identifier normalization `(row.get('fips') or '').strip().zfill(5)`. -/
def normFips (s : Option String) : String := zfill (pyStrip (s.getD "")) 5

/-- One iteration of the row loop of `load_existing_pm`. -/
def loadStep (d : PmData) (row : Row) : Except Err PmData :=
  let fips := normFips row.fips
  if fips = "" then .ok d
  else
    match row.pm25_mean_2016_2024 with
    | none => .ok d
    | some raw =>
      if raw = "" then .ok d
      else
        match parse_decimal raw with
        | .error e => .error e
        | .ok value =>
          .ok { pm_values := setVal d.pm_values fips value,
                state_values := appendState d.state_values (stateOf fips) value,
                national_values := d.national_values ++ [value] }

def loadRows : List Row → PmData → Except Err PmData
  | [], d => .ok d
  | r :: rs, d =>
    match loadStep d r with
    | .error e => .error e
    | .ok d1 => loadRows rs d1

def emptyPm : PmData := { pm_values := [], state_values := [], national_values := [] }

/-- `load_existing_pm()`: fold the row loop over the input and fail with the
empty-dataset error when no national value was collected. -/
def load_existing_pm (rows : List Row) : Except Err PmData :=
  match loadRows rows emptyPm with
  | .error e => .error e
  | .ok d => if d.national_values = [] then .error .emptyDataset else .ok d

/-- `load_county_fips()`: normalized `county_fips` of every row, in order
(each row modelled by its `county_fips` field). -/
def load_county_fips : List (Option String) → List String
  | [] => []
  | r :: rs =>
    let fips := normFips r
    if fips = "" then load_county_fips rs else fips :: load_county_fips rs

/-- The `state_means` loop: mean of each state's list, in dict order. -/
def compute_state_means : List (String × List PyDec) → Except Err (List (String × PyDec))
  | [] => .ok []
  | (st, vs) :: rest =>
    match sumDec vs with
    | .error e => .error e
    | .ok s =>
      match s.div (.fin (vs.length : ℚ)) with
      | .error e => .error e
      | .ok m =>
        match compute_state_means rest with
        | .error e => .error e
        | .ok ms => .ok ((st, m) :: ms)

/-- The per-county fallback policy of the output loop: the hard `"00059"`
override, then the direct measurement, then
`state_means.get(state, national_mean)`. -/
def backfillValue (nationalMean : PyDec) (pmValues : List (String × PyDec))
    (stateMeans : List (String × PyDec)) (fips : String) : PyDec :=
  if fips = "00059" then nationalMean
  else
    match pmValues.lookup fips with
    | some v => v
    | none =>
      match stateMeans.lookup (stateOf fips) with
      | some m => m
      | none => nationalMean

/-- Effectful map over a list, aborting at the first error (the shape of the
output loop building `output_rows`). -/
def mapExcept {α β : Type _} (f : α → Except Err β) : List α → Except Err (List β)
  | [] => .ok []
  | a :: as =>
    match f a with
    | .error e => .error e
    | .ok b =>
      match mapExcept f as with
      | .error e => .error e
      | .ok bs => .ok (b :: bs)

/-- `sorted(set(load_county_fips()))` followed by the `"00000"` skip of the
output loop. -/
def allFipsOf (places : List (Option String)) : List String :=
  (List.insertionSort strLe (load_county_fips places).dedup).filter
    (fun f => f ≠ "00000")

namespace Backfill

/-- `main()`: load the dataset, compute the national and state means, apply
the fallback policy to every retained reference county in ascending order,
and return the formatted output rows. -/
def main (pmRows : List Row) (places : List (Option String)) :
    Except Err (List (String × String)) :=
  match load_existing_pm pmRows with
  | .error e => .error e
  | .ok d =>
    match sumDec d.national_values with
    | .error e => .error e
    | .ok s =>
      match s.div (.fin (d.national_values.length : ℚ)) with
      | .error e => .error e
      | .ok nationalMean =>
        match compute_state_means d.state_values with
        | .error e => .error e
        | .ok stateMeans =>
          mapExcept (fun fips =>
              match format_decimal (backfillValue nationalMean d.pm_values stateMeans fips) with
              | .error e => .error e
              | .ok fv => .ok (fips, fv))
            (allFipsOf places)

end Backfill

/-- The bytes written by `csv.DictWriter`: fixed header then one
`fips,value` line per output row (CRLF line terminator). -/
def serializeOutput (rows : List (String × String)) : String :=
  "fips,pm25_mean_2016_2024\r\n" ++ String.join (rows.map (fun r => r.1 ++ "," ++ r.2 ++ "\r\n"))

/-- Re-reading the written output file as input rows of a second run. -/
def rowsOfOutput (out : List (String × String)) : List Row :=
  out.map (fun r => { fips := some r.1, pm25_mean_2016_2024 := some r.2 })

/-- The raw value of a row that the loader's loop retains (does not `continue`
past): `none` when the row is skipped.  With the code's normalization the
identifier test `if not fips` can never fire, so retention only depends on
the value field being present and nonempty. -/
def retainedValue (row : Row) : Option String :=
  if normFips row.fips = "" then none
  else
    match row.pm25_mean_2016_2024 with
    | none => none
    | some raw => if raw = "" then none else some raw

/-- The retained raw values of the whole file, in row order. -/
def retainedRaw (rows : List Row) : List String := rows.filterMap retainedValue

/-- The retained raw values of the rows whose normalized identifier is `f`. -/
def retainedRawFor (f : String) (rows : List Row) : List String :=
  rows.filterMap (fun row => if normFips row.fips = f then retainedValue row else none)

/-- The retained raw values of the rows owned by state `st`. -/
def retainedRawState (st : String) (rows : List Row) : List String :=
  rows.filterMap (fun row => if stateOf (normFips row.fips) = st then retainedValue row else none)

/-- Arithmetic mean of the finite values of a list (spec-side notion). -/
def ratMean (l : List PyDec) : ℚ := (l.map PyDec.toRat).sum / l.length

/-- All values collected by the loader are finite (the validity condition of
the spec's numeric statements: no `NaN`/`Infinity` in the input). -/
def allFiniteB (d : PmData) : Bool :=
  d.national_values.all PyDec.isFinite &&
    d.state_values.all (fun p => p.2.all PyDec.isFinite) &&
    d.pm_values.all (fun p => p.2.isFinite)

/-- Modelled from the spec (section 4.4 and section 8): the value the spec
assigns to a retained identifier other than `"00059"` — its direct
measurement if present, else the mean of its state's observed values if
there is at least one, else the national mean. -/
def spec_expected_value (d : PmData) (fips : String) : ℚ :=
  match d.pm_values.lookup fips with
  | some v => v.toRat
  | none =>
    match d.state_values.lookup (stateOf fips) with
    | some vs => ratMean vs
    | none => ratMean d.national_values

/-- Shape test for a fixed-point rendering with exactly three fractional
digits: an optional minus sign, a nonempty run of digits, a point, and
exactly three digits. -/
def isFixedPoint3 (s : String) : Bool :=
  let cs := if s.data.head? = some '-' then s.data.tail else s.data
  !(cs.takeWhile isDigitCh).isEmpty &&
    (match cs.dropWhile isDigitCh with
     | ['.', a, b, c] => isDigitCh a && isDigitCh b && isDigitCh c
     | _ => false)

theorem qAdd_eq (a b : ℚ) : qAdd a b = a + b := by
  have h := Rat.mkRat_add_mkRat a.num b.num a.den_nz b.den_nz
  rw [qAdd, ← h, Rat.mkRat_self, Rat.mkRat_self]

theorem qMul_eq (a b : ℚ) : qMul a b = a * b := by
  rw [qMul, ← Rat.mkRat_mul_mkRat, Rat.mkRat_self, Rat.mkRat_self]

theorem qNeg_eq (a : ℚ) : qNeg a = -a := by
  rw [qNeg, Rat.mkRat_eq_divInt, ← Rat.neg_divInt, ← Rat.mkRat_eq_divInt, Rat.mkRat_self]

theorem qInv_eq (a : ℚ) : qInv a = a⁻¹ := by
  rw [qInv, Rat.inv_def']
  rcases le_or_lt 0 a.num with h | h
  · rw [if_pos h, Rat.mkRat_eq_divInt, Int.natAbs_of_nonneg h]
  · rw [if_neg (not_le.mpr h), Rat.mkRat_eq_divInt]
    have hn : (a.num.natAbs : ℤ) = -a.num := Int.ofNat_natAbs_of_nonpos h.le
    rw [hn, ← Rat.divInt_neg, neg_neg]

theorem qDiv_eq (a b : ℚ) : qDiv a b = a / b := by
  rw [qDiv, qMul_eq, qInv_eq, div_eq_mul_inv]

theorem qZpow_eq (a : ℚ) (e : ℤ) : qZpow a e = a ^ e := by
  cases e with
  | ofNat n => rw [qZpow, Int.ofNat_eq_coe, zpow_natCast]
  | negSucc n => rw [qZpow, qInv_eq, zpow_negSucc]

theorem charListLeB_iff (a b : List Char) : charListLeB a b = true ↔ ¬ b < a := by
  induction a generalizing b with
  | nil =>
    cases b with
    | nil => exact ⟨fun _ h => (nomatch h), fun _ => rfl⟩
    | cons d ds => exact ⟨fun _ h => (nomatch h), fun _ => rfl⟩
  | cons c cs ih =>
    cases b with
    | nil =>
      refine ⟨fun h => Bool.noConfusion h, fun h => absurd ?_ h⟩
      exact List.Lex.nil
    | cons d ds =>
      by_cases hcd : c = d
      · subst hcd
        have hiff : (c :: ds) < (c :: cs) ↔ ds < cs := by
          constructor
          · intro h
            cases h with
            | cons h3 => exact h3
            | rel h1 => exact absurd h1 (lt_irrefl c)
          · intro h
            exact List.Lex.cons h
        rw [show charListLeB (c :: cs) (c :: ds) = charListLeB cs ds from by
          simp [charListLeB], ih ds]
        exact (not_congr hiff).symm
      · rw [show charListLeB (c :: cs) (d :: ds) = decide (c < d) from by
          simp [charListLeB, hcd], decide_eq_true_iff]
        have hiff : (d :: ds) < (c :: cs) ↔ d < c := by
          constructor
          · intro h
            cases h with
            | cons h3 => exact absurd rfl hcd
            | rel h1 => exact h1
          · intro h
            exact List.Lex.rel h
        rw [hiff, not_lt]
        exact ⟨le_of_lt, fun hle => lt_of_le_of_ne hle hcd⟩

theorem strLe_iff_le (a b : String) : strLe a b ↔ a ≤ b := by
  rw [String.le_iff_toList_le, ← not_lt]
  exact charListLeB_iff a.data b.data

theorem strLe_total (a b : String) : strLe a b ∨ strLe b a := by
  rw [strLe_iff_le, strLe_iff_le]
  exact le_total a b

theorem strLe_trans (a b c : String) (hab : strLe a b) (hbc : strLe b c) : strLe a c := by
  rw [strLe_iff_le] at hab hbc ⊢
  exact le_trans hab hbc

theorem floorNonneg_le (x : ℚ) (hx : 0 ≤ x) : (floorNonneg x : ℚ) ≤ x := by
  have hd : (0 : ℚ) < (x.den : ℚ) := by exact_mod_cast x.den_pos
  have hn : (0 : ℤ) ≤ x.num := Rat.num_nonneg.mpr hx
  have h1 : (x.num.toNat / x.den) * x.den ≤ x.num.toNat := Nat.div_mul_le_self _ _
  have h3 : ((x.num.toNat : ℕ) : ℚ) = ((x.num : ℤ) : ℚ) := by
    exact_mod_cast congrArg (fun z : ℤ => (z : ℚ)) (Int.toNat_of_nonneg hn)
  calc ((floorNonneg x : ℤ) : ℚ) = ((x.num.toNat / x.den : ℕ) : ℚ) := by
        rw [floorNonneg, Int.ofNat_eq_coe, Int.cast_natCast]
  _ ≤ (x.num : ℚ) / (x.den : ℚ) := by
        rw [le_div_iff₀ hd, ← h3]
        exact_mod_cast h1
  _ = x := Rat.num_div_den x

theorem lt_floorNonneg_add_one (x : ℚ) (hx : 0 ≤ x) : x < (floorNonneg x : ℚ) + 1 := by
  have hd : (0 : ℚ) < (x.den : ℚ) := by exact_mod_cast x.den_pos
  have hn : (0 : ℤ) ≤ x.num := Rat.num_nonneg.mpr hx
  have hmod : x.num.toNat % x.den < x.den := Nat.mod_lt _ x.den_pos
  have h1 : x.num.toNat < (x.num.toNat / x.den + 1) * x.den := by
    calc x.num.toNat = x.den * (x.num.toNat / x.den) + x.num.toNat % x.den :=
          (Nat.div_add_mod _ _).symm
    _ < x.den * (x.num.toNat / x.den) + x.den := Nat.add_lt_add_left hmod _
    _ = (x.num.toNat / x.den + 1) * x.den := by ring
  have h3 : ((x.num.toNat : ℕ) : ℚ) = ((x.num : ℤ) : ℚ) := by
    exact_mod_cast congrArg (fun z : ℤ => (z : ℚ)) (Int.toNat_of_nonneg hn)
  calc x = (x.num : ℚ) / (x.den : ℚ) := (Rat.num_div_den x).symm
  _ < ((x.num.toNat / x.den : ℕ) : ℚ) + 1 := by
        rw [div_lt_iff₀ hd, ← h3]
        exact_mod_cast h1
  _ = ((floorNonneg x : ℤ) : ℚ) + 1 := by
        rw [floorNonneg, Int.ofNat_eq_coe, Int.cast_natCast]

theorem qHalf_eq : (mkRat 1 2 : ℚ) = 1 / 2 := by
  rw [Rat.mkRat_eq_div]
  norm_num

theorem floorNonneg_add_half_intCast (m : ℤ) (hm : (0 : ℚ) ≤ (m : ℚ)) :
    floorNonneg ((m : ℚ) + 1 / 2) = m := by
  have h0 : (0 : ℚ) ≤ (m : ℚ) + 1 / 2 := by linarith
  have h1 := floorNonneg_le _ h0
  have h2 := lt_floorNonneg_add_one _ h0
  have hk1 : (floorNonneg ((m : ℚ) + 1 / 2) : ℤ) < m + 1 := by
    have h4 : (floorNonneg ((m : ℚ) + 1 / 2) : ℚ) < (m : ℚ) + 1 := by linarith
    exact_mod_cast h4
  have hk2 : m < floorNonneg ((m : ℚ) + 1 / 2) + 1 := by
    have h4 : (m : ℚ) < (floorNonneg ((m : ℚ) + 1 / 2) : ℚ) + 1 := by linarith
    exact_mod_cast h4
  omega

theorem roundHalfUpZ_intCast (n : ℤ) : roundHalfUpZ (n : ℚ) = n := by
  rw [roundHalfUpZ]
  by_cases h : (0 : ℚ) ≤ (n : ℚ)
  · rw [if_pos h, qAdd_eq, qHalf_eq, floorNonneg_add_half_intCast n h]
  · rw [if_neg h, qAdd_eq, qNeg_eq, qHalf_eq]
    have hneg : -(n : ℚ) = ((-n : ℤ) : ℚ) := by push_cast; ring
    have hm : (0 : ℚ) ≤ ((-n : ℤ) : ℚ) := by
      push_cast
      linarith [not_le.mp h]
    rw [hneg, floorNonneg_add_half_intCast (-n) hm, neg_neg]

theorem roundHalfUpZ_dist (x : ℚ) : |x - (roundHalfUpZ x : ℚ)| ≤ 1 / 2 := by
  rw [roundHalfUpZ]
  by_cases h : (0 : ℚ) ≤ x
  · rw [if_pos h, qAdd_eq, qHalf_eq]
    have h0 : (0 : ℚ) ≤ x + 1 / 2 := by linarith
    have h1 := floorNonneg_le _ h0
    have h2 := lt_floorNonneg_add_one _ h0
    rw [abs_le]
    constructor <;> [linarith; linarith]
  · rw [if_neg h, qAdd_eq, qNeg_eq, qHalf_eq]
    have h0 : (0 : ℚ) ≤ -x + 1 / 2 := by linarith [not_le.mp h]
    have h1 := floorNonneg_le _ h0
    have h2 := lt_floorNonneg_add_one _ h0
    rw [abs_le]
    push_cast
    constructor <;> [linarith; linarith]

theorem charVal_digitCh : ∀ n : Nat, n < 10 → charVal (digitCh n) = n := by decide

theorem isDigitCh_digitCh : ∀ n : Nat, n < 10 → isDigitCh (digitCh n) = true := by decide

theorem isDigitCh_cases (c : Char) (h : isDigitCh c = true) :
    c = '0' ∨ c = '1' ∨ c = '2' ∨ c = '3' ∨ c = '4' ∨
    c = '5' ∨ c = '6' ∨ c = '7' ∨ c = '8' ∨ c = '9' := by
  have h2 := h
  simp only [isDigitCh, Bool.or_eq_true, decide_eq_true_iff] at h2
  tauto

theorem digit_props (c : Char) (h : isDigitCh c = true) :
    pyWsB c = false ∧ c ≠ '_' ∧ c ≠ '+' ∧ c ≠ '-' ∧ c ≠ '.' ∧ lowerSpec c = c ∧
    lowerSpec c ≠ 'i' ∧ lowerSpec c ≠ 'n' ∧ lowerSpec c ≠ 's' ∧ c ≠ 'e' ∧ c ≠ 'E' := by
  rcases isDigitCh_cases c h with rfl | rfl | rfl | rfl | rfl | rfl | rfl | rfl | rfl | rfl <;>
    exact (by decide)

theorem digitsVal_aux (l : List Char) (x : Nat) :
    l.foldl (fun a c => 10 * a + charVal c) x = x * 10 ^ l.length + digitsVal l := by
  induction l generalizing x with
  | nil => simp [digitsVal]
  | cons c t ih =>
    rw [List.foldl_cons, ih]
    rw [show digitsVal (c :: t) = (c :: t).foldl (fun a c => 10 * a + charVal c) 0 from rfl,
      List.foldl_cons, ih (10 * 0 + charVal c)]
    simp [List.length_cons, pow_succ]
    ring

theorem digitsVal_append (a b : List Char) :
    digitsVal (a ++ b) = digitsVal a * 10 ^ b.length + digitsVal b := by
  rw [show digitsVal (a ++ b) = (a ++ b).foldl (fun a c => 10 * a + charVal c) 0 from rfl,
    List.foldl_append, digitsVal_aux]
  rfl

theorem natToCharsAux_spec : ∀ fuel n : Nat, n ≤ fuel →
    (∀ c ∈ natToCharsAux fuel n, isDigitCh c = true) ∧
    digitsVal (natToCharsAux fuel n) = n ∧ (n ≠ 0 → natToCharsAux fuel n ≠ []) := by
  intro fuel
  induction fuel with
  | zero =>
    intro n hn
    have h0 : n = 0 := Nat.le_zero.mp hn
    subst h0
    exact ⟨fun c hc => absurd hc (by simp [natToCharsAux]), by simp [natToCharsAux, digitsVal],
      fun h => absurd rfl h⟩
  | succ fuel ih =>
    intro n hn
    by_cases h0 : n = 0
    · subst h0
      exact ⟨fun c hc => absurd hc (by simp [natToCharsAux]), by simp [natToCharsAux, digitsVal],
        fun h => absurd rfl h⟩
    · have hpos : 0 < n := Nat.pos_of_ne_zero h0
      have hdivlt : n / 10 < n := Nat.div_lt_self hpos (by norm_num)
      have hdiv : n / 10 ≤ fuel := by omega
      obtain ⟨ihd, ihv, _⟩ := ih (n / 10) hdiv
      have hunf : natToCharsAux (fuel + 1) n = natToCharsAux fuel (n / 10) ++ [digitCh (n % 10)] := by
        simp [natToCharsAux, h0]
      have hmod : n % 10 < 10 := Nat.mod_lt _ (by norm_num)
      refine ⟨?_, ?_, ?_⟩
      · intro c hc
        rw [hunf] at hc
        rcases List.mem_append.mp hc with hc | hc
        · exact ihd c hc
        · rw [List.mem_singleton.mp hc]
          exact isDigitCh_digitCh _ hmod
      · rw [hunf, digitsVal_append, ihv]
        have : digitsVal [digitCh (n % 10)] = n % 10 := by
          rw [show digitsVal [digitCh (n % 10)] = 10 * 0 + charVal (digitCh (n % 10)) from rfl,
            charVal_digitCh _ hmod]
          omega
        rw [this]
        simp
        omega
      · intro _
        rw [hunf]
        simp

theorem natToChars_digits (n : Nat) : ∀ c ∈ natToChars n, isDigitCh c = true := by
  rw [natToChars]
  by_cases h : n = 0
  · rw [if_pos h]
    intro c hc
    rw [List.mem_singleton.mp hc]
    decide
  · rw [if_neg h]
    exact (natToCharsAux_spec n n le_rfl).1

theorem digitsVal_natToChars (n : Nat) : digitsVal (natToChars n) = n := by
  rw [natToChars]
  by_cases h : n = 0
  · rw [if_pos h, h]
    decide
  · rw [if_neg h]
    exact (natToCharsAux_spec n n le_rfl).2.1

theorem natToChars_ne_nil (n : Nat) : natToChars n ≠ [] := by
  rw [natToChars]
  by_cases h : n = 0
  · rw [if_pos h]
    simp
  · rw [if_neg h]
    exact (natToCharsAux_spec n n le_rfl).2.2 h

theorem pad3_digits (m : Nat) : ∀ c ∈ pad3 m, isDigitCh c = true := by
  intro c hc
  rw [pad3] at hc
  have h10 : ∀ k : Nat, k % 10 < 10 := fun k => Nat.mod_lt _ (by norm_num)
  simp only [List.mem_cons, List.not_mem_nil, or_false] at hc
  rcases hc with hc | hc | hc
  · rw [hc]; exact isDigitCh_digitCh _ (h10 _)
  · rw [hc]; exact isDigitCh_digitCh _ (h10 _)
  · rw [hc]; exact isDigitCh_digitCh _ (h10 _)

theorem digitsVal_pad3 (m : Nat) (h : m < 1000) : digitsVal (pad3 m) = m := by
  have h1 : m / 100 % 10 < 10 := Nat.mod_lt _ (by norm_num)
  have h2 : m / 10 % 10 < 10 := Nat.mod_lt _ (by norm_num)
  have h3 : m % 10 < 10 := Nat.mod_lt _ (by norm_num)
  rw [pad3, show digitsVal [digitCh (m / 100 % 10), digitCh (m / 10 % 10), digitCh (m % 10)] =
    10 * (10 * (10 * 0 + charVal (digitCh (m / 100 % 10))) + charVal (digitCh (m / 10 % 10))) +
      charVal (digitCh (m % 10)) from rfl,
    charVal_digitCh _ h1, charVal_digitCh _ h2, charVal_digitCh _ h3]
  omega

theorem takeWhile_eq_self (p : Char → Bool) :
    ∀ a : List Char, (∀ c ∈ a, p c = true) → a.takeWhile p = a := by
  intro a
  induction a with
  | nil => intro _; rfl
  | cons c cs ih =>
    intro h
    rw [List.takeWhile_cons, h c (List.mem_cons_self _ _),
      ih (fun d hd => h d (List.mem_cons_of_mem _ hd))]
    simp

theorem dropWhile_eq_nil_of_all (p : Char → Bool) :
    ∀ a : List Char, (∀ c ∈ a, p c = true) → a.dropWhile p = [] := by
  intro a
  induction a with
  | nil => intro _; rfl
  | cons c cs ih =>
    intro h
    rw [List.dropWhile_cons, h c (List.mem_cons_self _ _)]
    simp only [if_true]
    exact ih (fun d hd => h d (List.mem_cons_of_mem _ hd))

theorem dropWhile_eq_self_of_all_not (p : Char → Bool) :
    ∀ a : List Char, (∀ c ∈ a, p c = false) → a.dropWhile p = a := by
  intro a
  induction a with
  | nil => intro _; rfl
  | cons c cs _ =>
    intro h
    rw [List.dropWhile_cons, h c (List.mem_cons_self _ _)]
    simp

theorem takeWhile_append_not (p : Char → Bool) (a : List Char) (b : Char) (t : List Char)
    (ha : ∀ c ∈ a, p c = true) (hb : p b = false) :
    (a ++ b :: t).takeWhile p = a ∧ (a ++ b :: t).dropWhile p = b :: t := by
  induction a with
  | nil =>
    simp only [List.nil_append, List.takeWhile_cons, List.dropWhile_cons, hb]
    exact ⟨rfl, rfl⟩
  | cons c cs ih =>
    have hc := ha c (List.mem_cons_self _ _)
    obtain ⟨ih1, ih2⟩ := ih (fun d hd => ha d (List.mem_cons_of_mem _ hd))
    constructor
    · rw [List.cons_append, List.takeWhile_cons, hc]
      simp only [if_true]
      rw [ih1]
    · rw [List.cons_append, List.dropWhile_cons, hc]
      simp only [if_true]
      rw [ih2]

theorem pyStripList_eq_self (cs : List Char) (h : ∀ c ∈ cs, pyWsB c = false) :
    pyStripList cs = cs := by
  rw [pyStripList, dropWhile_eq_self_of_all_not _ _ h,
    dropWhile_eq_self_of_all_not _ _ (fun c hc => h c (List.mem_reverse.mp hc)),
    List.reverse_reverse]

theorem filter_ne_underscore_eq_self (cs : List Char) (h : ∀ c ∈ cs, c ≠ '_') :
    cs.filter (fun c => ¬ (c = '_')) = cs := by
  rw [List.filter_eq_self]
  intro c hc
  simpa using h c hc

theorem parseNumeric_render (neg : Bool) (ic : List Char) (m : Nat)
    (hic : ∀ c ∈ ic, isDigitCh c = true) (hne : ic ≠ []) (hm : m < 1000) :
    parseNumeric neg (ic ++ '.' :: pad3 m) =
      some (.fin (if neg then -(((digitsVal ic * 1000 + m : ℕ) : ℚ) / 1000)
        else ((digitsVal ic * 1000 + m : ℕ) : ℚ) / 1000)) := by
  obtain ⟨htake, hdrop⟩ := takeWhile_append_not isDigitCh ic '.' (pad3 m) hic (by decide)
  have hfr_take : (pad3 m).takeWhile isDigitCh = pad3 m := takeWhile_eq_self _ _ (pad3_digits m)
  have hfr_drop : (pad3 m).dropWhile isDigitCh = [] := dropWhile_eq_nil_of_all _ _ (pad3_digits m)
  simp only [parseNumeric, htake, hdrop, List.head?_cons, List.tail_cons, hfr_take, hfr_drop,
    eq_self_iff_true, if_true]
  rw [if_neg (fun h => hne h.1)]
  have hlen : (pad3 m).length = 3 := rfl
  have hval : digitsVal (pad3 m) = m := digitsVal_pad3 m hm
  rw [hlen, hval, qMul_eq, qDiv_eq, qZpow_eq, zpow_zero, mul_one]
  have hpow : ((10 : ℚ) ^ (3 : ℕ)) = 1000 := by norm_num
  have hpow2 : digitsVal ic * 10 ^ (3 : ℕ) + m = digitsVal ic * 1000 + m := by norm_num
  rw [hpow, hpow2]
  by_cases hn : neg
  · rw [if_pos hn, if_pos hn, qNeg_eq]
  · rw [if_neg hn, if_neg hn]

theorem parseAfterSign_render (neg : Bool) (ic : List Char) (m : Nat)
    (hic : ∀ c ∈ ic, isDigitCh c = true) (hne : ic ≠ []) (hm : m < 1000) :
    parseAfterSign neg (ic ++ '.' :: pad3 m) =
      some (.fin (if neg then -(((digitsVal ic * 1000 + m : ℕ) : ℚ) / 1000)
        else ((digitsVal ic * 1000 + m : ℕ) : ℚ) / 1000)) := by
  obtain ⟨c0, ic₂, rfl⟩ := List.exists_cons_of_ne_nil hne
  have hc0 : isDigitCh c0 = true := hic c0 (List.mem_cons_self _ _)
  obtain ⟨_, _, _, _, _, hlow, hni, hnn, hns, _, _⟩ := digit_props c0 hc0
  have hc0i : c0 ≠ 'i' := hlow ▸ hni
  have hc0n : c0 ≠ 'n' := hlow ▸ hnn
  have hc0s : c0 ≠ 's' := hlow ▸ hns
  have hmap : (c0 :: ic₂ ++ '.' :: pad3 m).map lowerSpec =
      c0 :: (ic₂ ++ '.' :: pad3 m).map lowerSpec := by
    rw [List.cons_append, List.map_cons, hlow]
  simp only [parseAfterSign, hmap]
  rw [if_neg, if_neg, if_neg]
  · exact parseNumeric_render neg _ m hic hne hm
  · intro h
    rw [List.take_cons (by norm_num)] at h
    exact hc0s (List.cons.inj h).1
  · intro h
    rw [List.take_cons (by norm_num)] at h
    exact hc0n (List.cons.inj h).1
  · rintro (h | h) <;> exact hc0i (List.cons.inj h).1

theorem renderScaled_data (n : ℤ) :
    (renderScaled n).data = (if n < 0 then ['-'] else []) ++
      natToChars (n.natAbs / 1000) ++ '.' :: pad3 (n.natAbs % 1000) := rfl

theorem renderScaled_chars (n : ℤ) :
    ∀ c ∈ (renderScaled n).data, isDigitCh c = true ∨ c = '-' ∨ c = '.' := by
  intro c hc
  rw [renderScaled_data] at hc
  rcases List.mem_append.mp hc with hc | hc
  · rcases List.mem_append.mp hc with hc | hc
    · right; left
      by_cases hn : n < 0
      · rw [if_pos hn] at hc
        exact List.mem_singleton.mp hc
      · rw [if_neg hn] at hc
        cases hc
    · left
      exact natToChars_digits _ c hc
  · rcases List.mem_cons.mp hc with hc | hc
    · right; right; exact hc
    · left
      exact pad3_digits _ c hc

theorem parse_renderScaled (n : ℤ) :
    parse_decimal (renderScaled n) = .ok (.fin ((n : ℚ) / 1000)) := by
  have hic : ∀ c ∈ natToChars (n.natAbs / 1000), isDigitCh c = true := natToChars_digits _
  have hne : natToChars (n.natAbs / 1000) ≠ [] := natToChars_ne_nil _
  have hm : n.natAbs % 1000 < 1000 := Nat.mod_lt _ (by norm_num)
  have hval : digitsVal (natToChars (n.natAbs / 1000)) * 1000 + n.natAbs % 1000 = n.natAbs := by
    rw [digitsVal_natToChars]
    have := Nat.div_add_mod n.natAbs 1000
    omega
  have habs : ((n.natAbs : ℕ) : ℚ) = |(n : ℚ)| := by
    rw [Int.cast_natAbs]
    push_cast
    ring_nf
  have hchars : ∀ c ∈ (renderScaled n).data, pyWsB c = false ∧ c ≠ '_' := by
    intro c hc
    rcases renderScaled_chars n c hc with h | h | h
    · obtain ⟨h1, h2, _⟩ := digit_props c h
      exact ⟨h1, h2⟩
    · rw [h]; exact ⟨rfl, by decide⟩
    · rw [h]; exact ⟨rfl, by decide⟩
  have hstrip : pyStripList (renderScaled n).data = (renderScaled n).data :=
    pyStripList_eq_self _ (fun c hc => (hchars c hc).1)
  have hfilter : ((renderScaled n).data).filter (fun c => ¬ (c = '_')) = (renderScaled n).data :=
    filter_ne_underscore_eq_self _ (fun c hc => (hchars c hc).2)
  rw [parse_decimal]
  by_cases hn : n < 0
  · have hdata : (renderScaled n).data =
        '-' :: (natToChars (n.natAbs / 1000) ++ '.' :: pad3 (n.natAbs % 1000)) := by
      rw [renderScaled_data, if_pos hn]
      simp [List.append_assoc]
    have hcs1 : ((pyStripList (renderScaled n).data).filter (fun c => ¬ (c = '_'))) =
        '-' :: (natToChars (n.natAbs / 1000) ++ '.' :: pad3 (n.natAbs % 1000)) := by
      rw [hstrip, hfilter, hdata]
    rw [show parseDecChars (renderScaled n).data =
        parseAfterSign true (natToChars (n.natAbs / 1000) ++ '.' :: pad3 (n.natAbs % 1000)) from by
      simp only [parseDecChars, hcs1, List.head?_cons, List.tail_cons]
      rw [if_neg (by decide), if_pos trivial]]
    rw [parseAfterSign_render true _ _ hic hne hm, if_pos rfl, hval, habs,
      abs_of_neg (show (n : ℚ) < 0 by exact_mod_cast hn)]
    ring_nf
  · have hdata : (renderScaled n).data =
        natToChars (n.natAbs / 1000) ++ '.' :: pad3 (n.natAbs % 1000) := by
      rw [renderScaled_data, if_neg hn]
      simp
    obtain ⟨c0, ic₂, hcons⟩ := List.exists_cons_of_ne_nil hne
    have hc0 : isDigitCh c0 = true := hic c0 (hcons ▸ List.mem_cons_self _ _)
    obtain ⟨_, _, hplus, hminus, _, _, _, _, _, _, _⟩ := digit_props c0 hc0
    have hcs1 : ((pyStripList (renderScaled n).data).filter (fun c => ¬ (c = '_'))) =
        c0 :: (ic₂ ++ '.' :: pad3 (n.natAbs % 1000)) := by
      rw [hstrip, hfilter, hdata, hcons, List.cons_append]
    rw [show parseDecChars (renderScaled n).data =
        parseAfterSign false (natToChars (n.natAbs / 1000) ++ '.' :: pad3 (n.natAbs % 1000)) from by
      simp only [parseDecChars, hcs1, List.head?_cons]
      rw [if_neg (by simp [hplus]), if_neg (by simp [hminus]), hcons, List.cons_append]]
    rw [parseAfterSign_render false _ _ hic hne hm, if_neg (by simp), hval, habs,
      abs_of_nonneg (show (0 : ℚ) ≤ (n : ℚ) by exact_mod_cast not_lt.mp hn)]

theorem renderFixed3_stable (n : ℤ) : renderFixed3 ((n : ℚ) / 1000) = renderScaled n := by
  rw [renderFixed3, qMul_eq]
  have h : (n : ℚ) / 1000 * 1000 = (n : ℚ) := div_mul_cancel₀ _ (by norm_num)
  rw [h, roundHalfUpZ_intCast]

theorem format_roundtrip (v : PyDec) (s : String) (h : format_decimal v = .ok s) :
    ∃ w, parse_decimal s = .ok w ∧ format_decimal w = .ok s := by
  cases v with
  | fin q =>
    have hs : s = renderFixed3 q := (Except.ok.inj h).symm
    refine ⟨.fin ((roundHalfUpZ (qMul q 1000) : ℤ) / 1000), ?_, ?_⟩
    · rw [hs, renderFixed3]
      exact parse_renderScaled _
    · rw [hs, show format_decimal (.fin ((roundHalfUpZ (qMul q 1000) : ℤ) / 1000)) =
        .ok (renderFixed3 ((roundHalfUpZ (qMul q 1000) : ℤ) / 1000)) from rfl,
        renderFixed3_stable]
      rfl
  | nan =>
    have hs : s = "NaN" := (Except.ok.inj h).symm
    exact ⟨.nan, by rw [hs]; decide, by rw [hs]; rfl⟩
  | snan => exact Except.noConfusion h
  | inf => exact Except.noConfusion h
  | negInf => exact Except.noConfusion h

theorem format_ok_ne_empty (v : PyDec) (s : String) (h : format_decimal v = .ok s) : s ≠ "" := by
  cases v with
  | fin q =>
    have hs : s = renderFixed3 q := (Except.ok.inj h).symm
    intro he
    have : (renderFixed3 q).data = [] := by rw [← hs, he]
    rw [renderFixed3, renderScaled_data] at this
    rcases List.append_eq_nil.mp this with ⟨h1, h2⟩
    rcases List.append_eq_nil.mp h1 with ⟨_, h4⟩
    exact natToChars_ne_nil _ h4
  | nan =>
    have hs : s = "NaN" := (Except.ok.inj h).symm
    rw [hs]
    decide
  | snan => exact Except.noConfusion h
  | inf => exact Except.noConfusion h
  | negInf => exact Except.noConfusion h

theorem mapExcept_ok_mem {α β : Type _} (f : α → Except Err β) :
    ∀ (l : List α) (out : List β), mapExcept f l = .ok out → ∀ b ∈ out, ∃ a ∈ l, f a = .ok b := by
  intro l
  induction l with
  | nil =>
    intro out h b hb
    rw [mapExcept] at h
    rw [← Except.ok.inj h] at hb
    cases hb
  | cons a as ih =>
    intro out h b hb
    rw [mapExcept] at h
    cases hfa : f a with
    | error e => rw [hfa] at h; exact Except.noConfusion h
    | ok b0 =>
      rw [hfa] at h
      cases hrest : mapExcept f as with
      | error e => rw [hrest] at h; exact Except.noConfusion h
      | ok bs =>
        rw [hrest] at h
        rw [← Except.ok.inj h] at hb
        rcases List.mem_cons.mp hb with hb | hb
        · exact ⟨a, List.mem_cons_self _ _, by rw [hfa, hb]⟩
        · obtain ⟨a2, ha2, hfa2⟩ := ih bs hrest b hb
          exact ⟨a2, List.mem_cons_of_mem _ ha2, hfa2⟩

theorem mapExcept_ok_forall {α β : Type _} (f : α → Except Err β) :
    ∀ (l : List α) (out : List β), mapExcept f l = .ok out → ∀ a ∈ l, ∃ b ∈ out, f a = .ok b := by
  intro l
  induction l with
  | nil =>
    intro out h a ha
    cases ha
  | cons a0 as ih =>
    intro out h a ha
    rw [mapExcept] at h
    cases hfa : f a0 with
    | error e => rw [hfa] at h; exact Except.noConfusion h
    | ok b0 =>
      rw [hfa] at h
      cases hrest : mapExcept f as with
      | error e => rw [hrest] at h; exact Except.noConfusion h
      | ok bs =>
        rw [hrest] at h
        rw [← Except.ok.inj h]
        rcases List.mem_cons.mp ha with ha | ha
        · exact ⟨b0, List.mem_cons_self _ _, by rw [ha, hfa]⟩
        · obtain ⟨b2, hb2, hfb2⟩ := ih bs hrest a ha
          exact ⟨b2, List.mem_cons_of_mem _ hb2, hfb2⟩

theorem mapExcept_fst {β : Type _} (f : String → Except Err (String × β))
    (hf : ∀ a b, f a = .ok b → b.1 = a) :
    ∀ (l : List String) (out : List (String × β)), mapExcept f l = .ok out →
      out.map Prod.fst = l := by
  intro l
  induction l with
  | nil =>
    intro out h
    rw [mapExcept] at h
    rw [← Except.ok.inj h]
    rfl
  | cons a as ih =>
    intro out h
    rw [mapExcept] at h
    cases hfa : f a with
    | error e => rw [hfa] at h; exact Except.noConfusion h
    | ok b0 =>
      rw [hfa] at h
      cases hrest : mapExcept f as with
      | error e => rw [hrest] at h; exact Except.noConfusion h
      | ok bs =>
        rw [hrest] at h
        rw [← Except.ok.inj h, List.map_cons, ih bs hrest, hf a b0 hfa]

theorem mapExcept_mem_pair {β : Type _} (f : String → Except Err (String × β))
    (hf : ∀ a b, f a = .ok b → b.1 = a) (l : List String) (out : List (String × β))
    (h : mapExcept f l = .ok out) (x : String × β) (hx : x ∈ out) : f x.1 = .ok x := by
  obtain ⟨a, _, hfa⟩ := mapExcept_ok_mem f l out h x hx
  rw [← hf a x hfa] at hfa
  exact hfa

theorem zfill_ne_empty (s : String) (w : Nat) (hw : 0 < w) : zfill s w ≠ "" := by
  intro h
  have hdata : (zfill s w).data = [] := by rw [h]
  rw [zfill] at hdata
  by_cases hlen : w ≤ s.length
  · rw [if_pos hlen] at hdata
    have h0 : s.length = 0 := by
      rw [show s.length = s.data.length from rfl, hdata]
      rfl
    omega
  · rw [if_neg hlen] at hdata
    have hrep : w - s.length ≠ 0 := by omega
    rcases hmatch : s.data with _ | ⟨c, rest⟩ <;> rw [hmatch] at hdata <;> dsimp only at hdata
    · exact hrep ((List.replicate_eq_nil_iff _).mp hdata)
    · by_cases hc : c = '+' ∨ c = '-'
      · rw [if_pos hc] at hdata
        exact List.noConfusion hdata
      · rw [if_neg hc] at hdata
        rcases List.append_eq_nil.mp hdata with ⟨h1, h2⟩
        exact List.noConfusion h2

theorem normFips_ne_empty (s : Option String) : normFips s ≠ "" :=
  zfill_ne_empty _ 5 (by norm_num)

theorem loadStep_skip (d : PmData) (row : Row) (h : retainedValue row = none) :
    loadStep d row = .ok d := by
  rw [retainedValue, if_neg (normFips_ne_empty row.fips)] at h
  simp only [loadStep]
  rw [if_neg (normFips_ne_empty row.fips)]
  cases hv : row.pm25_mean_2016_2024 with
  | none => rfl
  | some raw =>
    rw [hv] at h
    dsimp only at h ⊢
    by_cases hr : raw = ""
    · rw [if_pos hr]
    · rw [if_neg hr] at h
      exact Option.noConfusion h

theorem loadStep_retained (d : PmData) (row : Row) (raw : String)
    (h : retainedValue row = some raw) :
    loadStep d row =
      match parse_decimal raw with
      | .error e => .error e
      | .ok value =>
        .ok { pm_values := setVal d.pm_values (normFips row.fips) value,
              state_values := appendState d.state_values (stateOf (normFips row.fips)) value,
              national_values := d.national_values ++ [value] } := by
  rw [retainedValue, if_neg (normFips_ne_empty row.fips)] at h
  simp only [loadStep]
  rw [if_neg (normFips_ne_empty row.fips)]
  cases hv : row.pm25_mean_2016_2024 with
  | none => rw [hv] at h; exact Option.noConfusion h
  | some raw2 =>
    rw [hv] at h
    dsimp only at h ⊢
    by_cases hr : raw2 = ""
    · rw [if_pos hr] at h; exact Option.noConfusion h
    · rw [if_neg hr] at h
      rw [Option.some.inj h] at hr ⊢
      rw [if_neg hr]

theorem lookupStr_cons_self {β : Type _} (k : String) (v : β) (rest : List (String × β)) :
    List.lookup k ((k, v) :: rest) = some v := by
  rw [List.lookup, beq_self_eq_true]

theorem lookupStr_cons_ne {β : Type _} (k k2 : String) (v : β) (rest : List (String × β))
    (h : k2 ≠ k) : List.lookup k2 ((k, v) :: rest) = List.lookup k2 rest := by
  rw [List.lookup, show (k2 == k) = false from beq_eq_false_iff_ne.mpr h]

theorem lookup_setVal : ∀ (m : List (String × PyDec)) (k k2 : String) (v : PyDec),
    (setVal m k v).lookup k2 = if k2 = k then some v else m.lookup k2 := by
  intro m
  induction m with
  | nil =>
    intro k k2 v
    rw [show setVal [] k v = [(k, v)] from rfl]
    by_cases h : k2 = k
    · subst h
      rw [lookupStr_cons_self, if_pos rfl]
    · rw [lookupStr_cons_ne _ _ _ _ h, if_neg h]
  | cons p rest ih =>
    intro k k2 v
    obtain ⟨k0, v0⟩ := p
    by_cases h0 : k0 = k
    · subst h0
      rw [show setVal ((k0, v0) :: rest) k0 v = (k0, v) :: rest from by simp [setVal]]
      by_cases h : k2 = k0
      · subst h
        rw [lookupStr_cons_self, if_pos rfl]
      · rw [lookupStr_cons_ne _ _ _ _ h, lookupStr_cons_ne _ _ _ _ h, if_neg h]
    · rw [show setVal ((k0, v0) :: rest) k v = (k0, v0) :: setVal rest k v from by
        simp [setVal, h0]]
      by_cases h : k2 = k0
      · subst h
        have hne : ¬ k2 = k := fun hc => h0 (hc ▸ rfl)
        rw [lookupStr_cons_self, if_neg hne, lookupStr_cons_self]
      · rw [lookupStr_cons_ne _ _ _ _ h, lookupStr_cons_ne _ _ _ _ h, ih k k2 v]

theorem lookup_appendState : ∀ (m : List (String × List PyDec)) (k k2 : String) (v : PyDec),
    ((appendState m k v).lookup k2).getD [] =
      if k2 = k then (m.lookup k2).getD [] ++ [v] else (m.lookup k2).getD [] := by
  intro m
  induction m with
  | nil =>
    intro k k2 v
    rw [show appendState [] k v = [(k, [v])] from rfl]
    by_cases h : k2 = k
    · subst h
      rw [lookupStr_cons_self, if_pos rfl]
      rfl
    · rw [lookupStr_cons_ne _ _ _ _ h, if_neg h]
  | cons p rest ih =>
    intro k k2 v
    obtain ⟨k0, vs0⟩ := p
    by_cases h0 : k0 = k
    · subst h0
      rw [show appendState ((k0, vs0) :: rest) k0 v = (k0, vs0 ++ [v]) :: rest from by
        simp [appendState]]
      by_cases h : k2 = k0
      · subst h
        rw [lookupStr_cons_self, lookupStr_cons_self, if_pos rfl]
        rfl
      · rw [lookupStr_cons_ne _ _ _ _ h, lookupStr_cons_ne _ _ _ _ h, if_neg h]
    · rw [show appendState ((k0, vs0) :: rest) k v = (k0, vs0) :: appendState rest k v from by
        simp [appendState, h0]]
      by_cases h : k2 = k0
      · subst h
        have hne : ¬ k2 = k := fun hc => h0 (hc ▸ rfl)
        rw [lookupStr_cons_self, if_neg hne, lookupStr_cons_self]
      · rw [lookupStr_cons_ne _ _ _ _ h, lookupStr_cons_ne _ _ _ _ h, ih k k2 v]

theorem parse_decimal_error (raw : String) (e : Err) (h : parse_decimal raw = .error e) :
    e = .invalidValue raw := by
  rw [parse_decimal] at h
  cases hp : parseDecChars raw.data with
  | some v => rw [hp] at h; exact Except.noConfusion h
  | none => rw [hp] at h; exact (Except.error.inj h).symm

theorem loadStep_error_invalid (d : PmData) (row : Row) (e : Err)
    (h : loadStep d row = .error e) : ∃ raw, e = .invalidValue raw := by
  cases hr : retainedValue row with
  | none => rw [loadStep_skip d row hr] at h; exact Except.noConfusion h
  | some raw =>
    rw [loadStep_retained d row raw hr] at h
    cases hp : parse_decimal raw with
    | error e2 =>
      rw [hp] at h
      dsimp only at h
      refine ⟨raw, ?_⟩
      rw [← Except.error.inj h]
      exact parse_decimal_error raw e2 hp
    | ok v =>
      rw [hp] at h
      dsimp only at h
      exact Except.noConfusion h

theorem loadStep_ok_of_skip (d d1 : PmData) (row : Row) (hr : retainedValue row = none)
    (hs : loadStep d row = .ok d1) : d1 = d := by
  rw [loadStep_skip d row hr] at hs
  exact (Except.ok.inj hs).symm

theorem loadStep_ok_of_retained (d d1 : PmData) (row : Row) (raw : String)
    (hr : retainedValue row = some raw) (hs : loadStep d row = .ok d1) :
    ∃ v, parse_decimal raw = .ok v ∧
      d1 = { pm_values := setVal d.pm_values (normFips row.fips) v,
             state_values := appendState d.state_values (stateOf (normFips row.fips)) v,
             national_values := d.national_values ++ [v] } := by
  rw [loadStep_retained d row raw hr] at hs
  cases hp : parse_decimal raw with
  | error e =>
    rw [hp] at hs
    dsimp only at hs
    exact Except.noConfusion hs
  | ok v =>
    rw [hp] at hs
    dsimp only at hs
    exact ⟨v, rfl, (Except.ok.inj hs).symm⟩

theorem loadRows_error_invalid : ∀ (rows : List Row) (d0 : PmData) (e : Err),
    loadRows rows d0 = .error e → ∃ raw, e = .invalidValue raw := by
  intro rows
  induction rows with
  | nil =>
    intro d0 e h
    rw [loadRows] at h
    exact Except.noConfusion h
  | cons r rs ih =>
    intro d0 e h
    rw [loadRows] at h
    cases hs : loadStep d0 r with
    | error e2 =>
      rw [hs] at h
      exact (Except.error.inj h) ▸ loadStep_error_invalid d0 r e2 hs
    | ok d1 =>
      rw [hs] at h
      exact ih d1 e h

theorem loadRows_national : ∀ (rows : List Row) (d0 d : PmData), loadRows rows d0 = .ok d →
    ∃ vals, mapExcept parse_decimal (retainedRaw rows) = .ok vals ∧
      d.national_values = d0.national_values ++ vals := by
  intro rows
  induction rows with
  | nil =>
    intro d0 d h
    rw [loadRows] at h
    exact ⟨[], rfl, by rw [← Except.ok.inj h, List.append_nil]⟩
  | cons r rs ih =>
    intro d0 d h
    rw [loadRows] at h
    cases hs : loadStep d0 r with
    | error e2 => rw [hs] at h; exact Except.noConfusion h
    | ok d1 =>
      rw [hs] at h
      cases hr : retainedValue r with
      | none =>
        rw [loadStep_ok_of_skip d0 d1 r hr hs] at h
        obtain ⟨vals, hmap, hnat⟩ := ih d0 d h
        refine ⟨vals, ?_, hnat⟩
        rw [retainedRaw, List.filterMap_cons, hr]
        exact hmap
      | some raw =>
        obtain ⟨v, hp, hd1⟩ := loadStep_ok_of_retained d0 d1 r raw hr hs
        obtain ⟨vals, hmap, hnat⟩ := ih d1 d h
        refine ⟨v :: vals, ?_, ?_⟩
        · rw [retainedRaw, List.filterMap_cons, hr]
          rw [show retainedRaw rs = rs.filterMap retainedValue from rfl] at hmap
          simp only [mapExcept]
          rw [hp]
          dsimp only
          rw [hmap]
        · rw [hnat, hd1]
          simp

theorem loadRows_state (st : String) : ∀ (rows : List Row) (d0 d : PmData),
    loadRows rows d0 = .ok d →
    ∃ vals, mapExcept parse_decimal (retainedRawState st rows) = .ok vals ∧
      (d.state_values.lookup st).getD [] = (d0.state_values.lookup st).getD [] ++ vals := by
  intro rows
  induction rows with
  | nil =>
    intro d0 d h
    rw [loadRows] at h
    exact ⟨[], rfl, by rw [← Except.ok.inj h, List.append_nil]⟩
  | cons r rs ih =>
    intro d0 d h
    rw [loadRows] at h
    cases hs : loadStep d0 r with
    | error e2 => rw [hs] at h; exact Except.noConfusion h
    | ok d1 =>
      rw [hs] at h
      cases hr : retainedValue r with
      | none =>
        rw [loadStep_ok_of_skip d0 d1 r hr hs] at h
        obtain ⟨vals, hmap, hst⟩ := ih d0 d h
        refine ⟨vals, ?_, hst⟩
        rw [retainedRawState, List.filterMap_cons]
        by_cases hcond : stateOf (normFips r.fips) = st
        · rw [if_pos hcond, hr]
          exact hmap
        · rw [if_neg hcond]
          exact hmap
      | some raw =>
        obtain ⟨v, hp, hd1⟩ := loadStep_ok_of_retained d0 d1 r raw hr hs
        obtain ⟨vals, hmap, hst⟩ := ih d1 d h
        by_cases hcond : stateOf (normFips r.fips) = st
        · refine ⟨v :: vals, ?_, ?_⟩
          · rw [retainedRawState, List.filterMap_cons, if_pos hcond, hr]
            rw [show retainedRawState st rs =
              rs.filterMap (fun row => if stateOf (normFips row.fips) = st then
                retainedValue row else none) from rfl] at hmap
            simp only [mapExcept]
            rw [hp]
            dsimp only
            rw [hmap]
          · rw [hst, hd1]
            dsimp only
            rw [lookup_appendState, if_pos hcond.symm]
            simp
        · refine ⟨vals, ?_, ?_⟩
          · rw [retainedRawState, List.filterMap_cons, if_neg hcond]
            exact hmap
          · rw [hst, hd1]
            dsimp only
            rw [lookup_appendState, if_neg (fun hc => hcond hc.symm)]

theorem getLast?_cons_some (a x : String) (l : List String) (h : l.getLast? = some x) :
    (a :: l).getLast? = some x := by
  cases l with
  | nil => exact Option.noConfusion h
  | cons b t => rw [List.getLast?_cons_cons]; exact h

theorem getLast?_eq_none_imp : ∀ (l : List String), l.getLast? = none → l = [] := by
  intro l
  induction l with
  | nil => intro _; rfl
  | cons b t ih =>
    intro h
    cases t with
    | nil => exact Option.noConfusion h
    | cons c t2 =>
      rw [List.getLast?_cons_cons] at h
      exact List.noConfusion (ih h)

theorem loadRows_pm (f : String) : ∀ (rows : List Row) (d0 d : PmData),
    loadRows rows d0 = .ok d →
    (∀ raw, (retainedRawFor f rows).getLast? = some raw →
      ∃ v, parse_decimal raw = .ok v ∧ d.pm_values.lookup f = some v) ∧
    ((retainedRawFor f rows).getLast? = none →
      d.pm_values.lookup f = d0.pm_values.lookup f) := by
  intro rows
  induction rows with
  | nil =>
    intro d0 d h
    rw [loadRows] at h
    rw [← Except.ok.inj h]
    exact ⟨fun raw hr => Option.noConfusion hr, fun _ => rfl⟩
  | cons r rs ih =>
    intro d0 d h
    rw [loadRows] at h
    cases hs : loadStep d0 r with
    | error e2 => rw [hs] at h; exact Except.noConfusion h
    | ok d1 =>
      rw [hs] at h
      obtain ⟨ih1, ih2⟩ := ih d1 d h
      have hskip : ∀ (hcontrib : (if normFips r.fips = f then retainedValue r else none) = none),
          retainedRawFor f (r :: rs) = retainedRawFor f rs := by
        intro hcontrib
        rw [retainedRawFor, List.filterMap_cons, hcontrib]
        rfl
      cases hcontrib : (if normFips r.fips = f then retainedValue r else none) with
      | none =>
        have hsame : d1.pm_values.lookup f = d0.pm_values.lookup f := by
          cases hr : retainedValue r with
          | none => rw [loadStep_ok_of_skip d0 d1 r hr hs]
          | some raw =>
            obtain ⟨v, _, hd1⟩ := loadStep_ok_of_retained d0 d1 r raw hr hs
            have hne : ¬ normFips r.fips = f := by
              intro hc
              rw [if_pos hc, hr] at hcontrib
              exact Option.noConfusion hcontrib
            rw [hd1]
            dsimp only
            rw [lookup_setVal, if_neg (fun hc => hne hc.symm)]
        rw [hskip hcontrib]
        exact ⟨fun raw hr => ih1 raw hr, fun hr => (ih2 hr).trans hsame⟩
      | some raw0 =>
        have hf : normFips r.fips = f := by
          by_cases hc : normFips r.fips = f
          · exact hc
          · rw [if_neg hc] at hcontrib
            exact Option.noConfusion hcontrib
        have hr : retainedValue r = some raw0 := by
          rw [if_pos hf] at hcontrib
          exact hcontrib
        obtain ⟨v, hp, hd1⟩ := loadStep_ok_of_retained d0 d1 r raw0 hr hs
        have hlist : retainedRawFor f (r :: rs) = raw0 :: retainedRawFor f rs := by
          rw [retainedRawFor, List.filterMap_cons, hcontrib]
          rfl
        have hlookup1 : d1.pm_values.lookup f = some v := by
          rw [hd1]
          dsimp only
          rw [hf, lookup_setVal, if_pos rfl]
        constructor
        · intro raw hlast
          rw [hlist] at hlast
          cases h2 : (retainedRawFor f rs).getLast? with
          | some raw2 =>
            rw [getLast?_cons_some raw0 raw2 _ h2] at hlast
            exact ih1 raw (h2.trans (Option.some.inj hlast ▸ rfl))
          | none =>
            rw [getLast?_eq_none_imp _ h2] at hlast
            have hraw : raw = raw0 := by
              rw [show ([raw0] : List String).getLast? = some raw0 from rfl] at hlast
              exact (Option.some.inj hlast).symm
            rw [hraw]
            exact ⟨v, hp, (ih2 h2).trans hlookup1⟩
        · intro hlast
          rw [hlist] at hlast
          cases h2 : (retainedRawFor f rs).getLast? with
          | some raw2 => rw [getLast?_cons_some raw0 raw2 _ h2] at hlast; exact Option.noConfusion hlast
          | none =>
            rw [getLast?_eq_none_imp _ h2] at hlast
            exact Option.noConfusion hlast

theorem load_existing_pm_ok (rows : List Row) (d : PmData) (h : load_existing_pm rows = .ok d) :
    loadRows rows emptyPm = .ok d ∧ d.national_values ≠ [] := by
  rw [load_existing_pm] at h
  cases hl : loadRows rows emptyPm with
  | error e => rw [hl] at h; exact Except.noConfusion h
  | ok d2 =>
    rw [hl] at h
    dsimp only at h
    by_cases hn : d2.national_values = []
    · rw [if_pos hn] at h; exact Except.noConfusion h
    · rw [if_neg hn] at h
      have heq : d2 = d := Except.ok.inj h
      subst heq
      exact ⟨rfl, hn⟩

theorem appendState_ne (m : List (String × List PyDec)) (k : String) (v : PyDec)
    (h : ∀ p ∈ m, p.2 ≠ []) : ∀ p ∈ appendState m k v, p.2 ≠ [] := by
  induction m with
  | nil =>
    intro p hp
    rw [show appendState [] k v = [(k, [v])] from rfl] at hp
    rw [List.mem_singleton.mp hp]
    simp
  | cons q rest ih =>
    obtain ⟨k0, vs0⟩ := q
    intro p hp
    by_cases h0 : k0 = k
    · subst h0
      rw [show appendState ((k0, vs0) :: rest) k0 v = (k0, vs0 ++ [v]) :: rest from by
        simp [appendState]] at hp
      rcases List.mem_cons.mp hp with hp | hp
      · rw [hp]; simp
      · exact h p (List.mem_cons_of_mem _ hp)
    · rw [show appendState ((k0, vs0) :: rest) k v = (k0, vs0) :: appendState rest k v from by
        simp [appendState, h0]] at hp
      rcases List.mem_cons.mp hp with hp | hp
      · rw [hp]; exact h (k0, vs0) (List.mem_cons_self _ _)
      · exact ih (fun p2 hp2 => h p2 (List.mem_cons_of_mem _ hp2)) p hp

theorem loadRows_state_ne : ∀ (rows : List Row) (d0 d : PmData), loadRows rows d0 = .ok d →
    (∀ p ∈ d0.state_values, p.2 ≠ []) → ∀ p ∈ d.state_values, p.2 ≠ [] := by
  intro rows
  induction rows with
  | nil =>
    intro d0 d h h0
    rw [loadRows] at h
    rw [← Except.ok.inj h]
    exact h0
  | cons r rs ih =>
    intro d0 d h h0
    rw [loadRows] at h
    cases hs : loadStep d0 r with
    | error e2 => rw [hs] at h; exact Except.noConfusion h
    | ok d1 =>
      rw [hs] at h
      cases hr : retainedValue r with
      | none =>
        rw [loadStep_ok_of_skip d0 d1 r hr hs] at h
        exact ih d0 d h h0
      | some raw =>
        obtain ⟨v, _, hd1⟩ := loadStep_ok_of_retained d0 d1 r raw hr hs
        refine ih d1 d h ?_
        rw [hd1]
        exact appendState_ne _ _ _ h0

theorem allFiniteB_spec (d : PmData) (h : allFiniteB d = true) :
    (∀ v ∈ d.national_values, v.isFinite = true) ∧
    (∀ p ∈ d.state_values, ∀ v ∈ p.2, v.isFinite = true) ∧
    (∀ p ∈ d.pm_values, p.2.isFinite = true) := by
  rw [allFiniteB] at h
  simp only [Bool.and_eq_true, List.all_eq_true] at h
  exact ⟨h.1.1, h.1.2, h.2⟩

theorem isFinite_fin (v : PyDec) (h : v.isFinite = true) : v = .fin v.toRat := by
  cases v with
  | fin q => rfl
  | nan => exact Bool.noConfusion h
  | snan => exact Bool.noConfusion h
  | inf => exact Bool.noConfusion h
  | negInf => exact Bool.noConfusion h

theorem sumFrom_fin : ∀ (l : List PyDec) (q0 : ℚ), (∀ v ∈ l, v.isFinite = true) →
    sumFrom (.fin q0) l = .ok (.fin (q0 + (l.map PyDec.toRat).sum)) := by
  intro l
  induction l with
  | nil =>
    intro q0 _
    rw [sumFrom]
    simp
  | cons v vs ih =>
    intro q0 h
    have hv := isFinite_fin v (h v (List.mem_cons_self _ _))
    rw [sumFrom, hv]
    rw [show (PyDec.fin q0).add (.fin v.toRat) = .ok (.fin (qAdd q0 v.toRat)) from rfl]
    dsimp only
    rw [ih (qAdd q0 v.toRat) (fun w hw => h w (List.mem_cons_of_mem _ hw)), qAdd_eq]
    rw [List.map_cons, List.sum_cons]
    simp only [Except.ok.injEq, PyDec.fin.injEq, PyDec.toRat]
    ring

theorem sumDec_fin (l : List PyDec) (h : ∀ v ∈ l, v.isFinite = true) :
    sumDec l = .ok (.fin ((l.map PyDec.toRat).sum)) := by
  rw [sumDec, sumFrom_fin l 0 h, zero_add]

theorem div_fin (a n : ℚ) (hn : n ≠ 0) :
    (PyDec.fin a).div (.fin n) = .ok (.fin (a / n)) := by
  rw [show (PyDec.fin a).div (.fin n) =
    (if n = 0 then .error .decimalOp else .ok (.fin (qDiv a n))) from rfl, if_neg hn, qDiv_eq]

theorem compute_state_means_fin : ∀ (l : List (String × List PyDec)),
    (∀ p ∈ l, ∀ v ∈ p.2, PyDec.isFinite v = true) → (∀ p ∈ l, p.2 ≠ []) →
    compute_state_means l = .ok (l.map (fun p => (p.1, PyDec.fin (ratMean p.2)))) := by
  intro l
  induction l with
  | nil => intro _ _; rfl
  | cons p rest ih =>
    intro hfin hne
    obtain ⟨st, vs⟩ := p
    have hlen : (vs.length : ℚ) ≠ 0 := by
      have := hne (st, vs) (List.mem_cons_self _ _)
      have hpos : 0 < vs.length := List.length_pos.mpr this
      exact_mod_cast Nat.pos_iff_ne_zero.mp hpos
    rw [compute_state_means, sumDec_fin vs (hfin (st, vs) (List.mem_cons_self _ _))]
    dsimp only
    rw [div_fin _ _ hlen]
    dsimp only
    rw [ih (fun p2 hp2 => hfin p2 (List.mem_cons_of_mem _ hp2))
      (fun p2 hp2 => hne p2 (List.mem_cons_of_mem _ hp2))]
    rfl

theorem main_ok_elim (pmRows : List Row) (places : List (Option String))
    (out : List (String × String)) (h : Backfill.main pmRows places = .ok out) :
    ∃ d s nm sms, load_existing_pm pmRows = .ok d ∧
      sumDec d.national_values = .ok s ∧
      s.div (.fin (d.national_values.length : ℚ)) = .ok nm ∧
      compute_state_means d.state_values = .ok sms ∧
      mapExcept (fun fips =>
        match format_decimal (backfillValue nm d.pm_values sms fips) with
        | .error e => .error e
        | .ok fv => .ok (fips, fv)) (allFipsOf places) = .ok out := by
  rw [Backfill.main] at h
  cases h1 : load_existing_pm pmRows with
  | error e => rw [h1] at h; exact Except.noConfusion h
  | ok d =>
    rw [h1] at h
    dsimp only at h
    cases h2 : sumDec d.national_values with
    | error e => rw [h2] at h; exact Except.noConfusion h
    | ok s =>
      rw [h2] at h
      dsimp only at h
      cases h3 : s.div (.fin (d.national_values.length : ℚ)) with
      | error e => rw [h3] at h; exact Except.noConfusion h
      | ok nm =>
        rw [h3] at h
        dsimp only at h
        cases h4 : compute_state_means d.state_values with
        | error e => rw [h4] at h; exact Except.noConfusion h
        | ok sms =>
          rw [h4] at h
          dsimp only at h
          exact ⟨d, s, nm, sms, rfl, h2, h3, h4, h⟩

theorem outFn_fst (nm : PyDec) (pm : List (String × PyDec)) (sms : List (String × PyDec)) :
    ∀ (a : String) (b : String × String),
      (match format_decimal (backfillValue nm pm sms a) with
        | .error e => (.error e : Except Err (String × String))
        | .ok fv => .ok (a, fv)) = .ok b → b.1 = a := by
  intro a b hab
  cases hf : format_decimal (backfillValue nm pm sms a) with
  | error e => rw [hf] at hab; exact Except.noConfusion hab
  | ok fv =>
    rw [hf] at hab
    rw [← Except.ok.inj hab]

theorem out_mem_format (nm : PyDec) (pm : List (String × PyDec)) (sms : List (String × PyDec))
    (l : List String) (out : List (String × String))
    (h : mapExcept (fun fips =>
      match format_decimal (backfillValue nm pm sms fips) with
      | .error e => .error e
      | .ok fv => .ok (fips, fv)) l = .ok out) :
    ∀ x ∈ out, format_decimal (backfillValue nm pm sms x.1) = .ok x.2 := by
  intro x hx
  have := mapExcept_mem_pair _ (outFn_fst nm pm sms) l out h x hx
  cases hf : format_decimal (backfillValue nm pm sms x.1) with
  | error e => rw [hf] at this; exact Except.noConfusion this
  | ok fv =>
    rw [hf] at this
    rw [show x.2 = fv from congrArg Prod.snd (Except.ok.inj this).symm]

theorem dropWhile_head_not (p : Char → Bool) :
    ∀ (l : List Char) (c : Char), (l.dropWhile p).head? = some c → p c = false := by
  intro l
  induction l with
  | nil => intro c hc; exact Option.noConfusion hc
  | cons a t ih =>
    intro c hc
    rw [List.dropWhile_cons] at hc
    by_cases hp : p a = true
    · rw [if_pos hp] at hc
      exact ih c hc
    · rw [if_neg hp] at hc
      rw [show c = a from (Option.some.inj hc).symm]
      simpa using hp

theorem getLast?_dropWhile_mem (p : Char → Bool) :
    ∀ (l : List Char) (c : Char), (l.dropWhile p).getLast? = some c → l.getLast? = some c := by
  intro l
  induction l with
  | nil => intro c hc; exact Option.noConfusion hc
  | cons a t ih =>
    intro c hc
    rw [List.dropWhile_cons] at hc
    by_cases hp : p a = true
    · rw [if_pos hp] at hc
      have ht := ih c hc
      cases t with
      | nil => exact Option.noConfusion ht
      | cons b t2 => rw [List.getLast?_cons_cons]; exact ht
    · rw [if_neg hp] at hc
      exact hc

theorem dropWhile_noop (p : Char → Bool) (l : List Char)
    (h : ∀ c, l.head? = some c → p c = false) : l.dropWhile p = l := by
  cases l with
  | nil => rfl
  | cons a t =>
    rw [List.dropWhile_cons, h a rfl]
    simp

theorem pyStripList_head_ws (cs : List Char) :
    ∀ c, (pyStripList cs).head? = some c → pyWsB c = false := by
  intro c hc
  rw [pyStripList, List.head?_reverse] at hc
  have h2 := getLast?_dropWhile_mem pyWsB _ c hc
  rw [List.getLast?_reverse] at h2
  exact dropWhile_head_not pyWsB _ c h2

theorem pyStripList_last_ws (cs : List Char) :
    ∀ c, (pyStripList cs).getLast? = some c → pyWsB c = false := by
  intro c hc
  rw [pyStripList, List.getLast?_reverse] at hc
  exact dropWhile_head_not pyWsB _ c hc

theorem pyStripList_noop (l : List Char)
    (h1 : ∀ c, l.head? = some c → pyWsB c = false)
    (h2 : ∀ c, l.getLast? = some c → pyWsB c = false) : pyStripList l = l := by
  rw [pyStripList, dropWhile_noop _ _ h1,
    dropWhile_noop _ _ (fun c hc => h2 c (by rwa [List.head?_reverse] at hc)),
    List.reverse_reverse]

theorem zfill_length_ge (s : String) (w : Nat) : w ≤ (zfill s w).length := by
  rw [zfill]
  by_cases h : w ≤ s.length
  · rw [if_pos h]
    exact h
  · rw [if_neg h]
    have hlen : s.length = s.data.length := rfl
    rcases hm : s.data with _ | ⟨c, rest⟩
    · dsimp only
      have h0 : s.length = 0 := by rw [hlen, hm]; rfl
      rw [show (String.mk (List.replicate (w - s.length) '0')).length =
        (List.replicate (w - s.length) '0').length from rfl, List.length_replicate]
      omega
    · have hsl : s.length = rest.length + 1 := by rw [hlen, hm]; rfl
      dsimp only
      by_cases hc : c = '+' ∨ c = '-'
      · rw [if_pos hc]
        rw [show (String.mk (c :: (List.replicate (w - s.length) '0' ++ rest))).length =
          (c :: (List.replicate (w - s.length) '0' ++ rest)).length from rfl]
        simp only [List.length_cons, List.length_append, List.length_replicate]
        omega
      · rw [if_neg hc]
        rw [show (String.mk (List.replicate (w - s.length) '0' ++ (c :: rest))).length =
          (List.replicate (w - s.length) '0' ++ (c :: rest)).length from rfl]
        simp only [List.length_cons, List.length_append, List.length_replicate]
        omega

theorem zfill_noop_of_ge (s : String) (w : Nat) (h : w ≤ s.length) : zfill s w = s := by
  rw [zfill, if_pos h]

theorem zfill_zfill (s : String) (w : Nat) : zfill (zfill s w) w = zfill s w :=
  zfill_noop_of_ge _ _ (zfill_length_ge s w)

theorem zfill_head_ws (t : String) (w : Nat)
    (h1 : ∀ c, t.data.head? = some c → pyWsB c = false) :
    ∀ c, (zfill t w).data.head? = some c → pyWsB c = false := by
  intro c hc
  rw [zfill] at hc
  by_cases h : w ≤ t.length
  · rw [if_pos h] at hc
    exact h1 c hc
  · rw [if_neg h] at hc
    have hlen : t.length = t.data.length := rfl
    have hrep : w - t.length ≠ 0 := by omega
    rcases hm : t.data with _ | ⟨c0, rest⟩ <;> rw [hm] at hc <;> dsimp only at hc
    · rw [List.head?_replicate, if_neg hrep] at hc
      rw [show c = '0' from (Option.some.inj hc).symm]
      rfl
    · by_cases hc0 : c0 = '+' ∨ c0 = '-'
      · rw [if_pos hc0] at hc
        rw [List.head?_cons] at hc
        rw [show c = c0 from (Option.some.inj hc).symm]
        rcases hc0 with h2 | h2 <;> rw [h2] <;> rfl
      · rw [if_neg hc0] at hc
        rw [show (String.mk (List.replicate (w - t.length) '0' ++ (c0 :: rest))).data =
          List.replicate (w - t.length) '0' ++ (c0 :: rest) from rfl, List.head?_append,
          List.head?_replicate, if_neg hrep] at hc
        rw [show c = '0' from (Option.some.inj hc).symm]
        rfl

theorem getLast?_eq_none_imp_char : ∀ (l : List Char), l.getLast? = none → l = [] := by
  intro l
  induction l with
  | nil => intro _; rfl
  | cons b t ih =>
    intro h
    cases t with
    | nil => exact Option.noConfusion h
    | cons c t2 =>
      rw [List.getLast?_cons_cons] at h
      exact List.noConfusion (ih h)

theorem zfill_last_ws (t : String) (w : Nat)
    (h2 : ∀ c, t.data.getLast? = some c → pyWsB c = false) :
    ∀ c, (zfill t w).data.getLast? = some c → pyWsB c = false := by
  intro c hc
  rw [zfill] at hc
  by_cases h : w ≤ t.length
  · rw [if_pos h] at hc
    exact h2 c hc
  · rw [if_neg h] at hc
    have hlen : t.length = t.data.length := rfl
    have hrep : w - t.length ≠ 0 := by omega
    rcases hm : t.data with _ | ⟨c0, rest⟩ <;> rw [hm] at hc <;> dsimp only at hc
    · rw [List.getLast?_replicate, if_neg hrep] at hc
      rw [show c = '0' from (Option.some.inj hc).symm]
      rfl
    · by_cases hc0 : c0 = '+' ∨ c0 = '-'
      · rw [if_pos hc0] at hc
        cases hrest : rest with
        | nil =>
          rw [hrest, List.append_nil, List.getLast?_cons, List.getLast?_replicate,
            if_neg hrep] at hc
          have hcc : c = '0' := by
            have := Option.some.inj hc
            simp at this
            exact this.symm
          rw [hcc]
          rfl
        | cons c1 rest2 =>
          rw [hrest, List.getLast?_cons, List.getLast?_append] at hc
          cases hl : (c1 :: rest2).getLast? with
          | none => exact List.noConfusion (getLast?_eq_none_imp_char _ hl)
          | some cl =>
            rw [hl] at hc
            have hccl : c = cl := by
              have := Option.some.inj hc
              simpa using this.symm
            apply h2 c
            rw [hm, hrest, List.getLast?_cons_cons, hl, hccl]
      · rw [if_neg hc0] at hc
        rw [List.getLast?_append] at hc
        cases hl : (c0 :: rest).getLast? with
        | none => exact List.noConfusion (getLast?_eq_none_imp_char _ hl)
        | some cl =>
          rw [hl] at hc
          have hccl : c = cl := by
            have := Option.some.inj hc
            simpa using this.symm
          apply h2 c
          rw [hm, hl, hccl]

theorem normFips_idem (y : Option String) : normFips (some (normFips y)) = normFips y := by
  have hdata : ∀ s : String, (pyStrip s).data = pyStripList s.data := fun s => rfl
  have hhead : ∀ c, (pyStrip (y.getD "")).data.head? = some c → pyWsB c = false := by
    rw [hdata]
    exact pyStripList_head_ws _
  have hlast : ∀ c, (pyStrip (y.getD "")).data.getLast? = some c → pyWsB c = false := by
    rw [hdata]
    exact pyStripList_last_ws _
  show zfill (pyStrip (zfill (pyStrip (y.getD "")) 5)) 5 = zfill (pyStrip (y.getD "")) 5
  have hnoop : pyStrip (zfill (pyStrip (y.getD "")) 5) = zfill (pyStrip (y.getD "")) 5 := by
    have hsl : pyStripList (zfill (pyStrip (y.getD "")) 5).data =
        (zfill (pyStrip (y.getD "")) 5).data :=
      pyStripList_noop _ (zfill_head_ws _ 5 hhead) (zfill_last_ws _ 5 hlast)
    show String.mk (pyStripList (zfill (pyStrip (y.getD "")) 5).data) = _
    rw [hsl]
  rw [hnoop, zfill_zfill]

theorem allFipsOf_sorted (places : List (Option String)) :
    List.Sorted (fun a b : String => a ≤ b) (allFipsOf places) := by
  haveI : IsTotal String strLe := ⟨strLe_total⟩
  haveI : IsTrans String strLe := ⟨fun a b c => strLe_trans a b c⟩
  have h1 : List.Sorted strLe (List.insertionSort strLe (load_county_fips places).dedup) :=
    List.sorted_insertionSort strLe _
  have h2 := List.Pairwise.filter (R := strLe)
    (fun f => decide (f ≠ "00000")) h1
  exact List.Pairwise.imp (fun hab => (strLe_iff_le _ _).mp hab) h2

theorem allFipsOf_nodup (places : List (Option String)) : (allFipsOf places).Nodup := by
  have h1 : (load_county_fips places).dedup.Nodup := List.nodup_dedup _
  have h2 : (List.insertionSort strLe (load_county_fips places).dedup).Nodup :=
    (List.perm_insertionSort strLe _).nodup_iff.mpr h1
  exact h2.filter _

theorem mem_allFipsOf (places : List (Option String)) (f : String) :
    f ∈ allFipsOf places ↔ f ∈ load_county_fips places ∧ f ≠ "00000" := by
  rw [allFipsOf, List.mem_filter]
  constructor
  · rintro ⟨h1, h2⟩
    refine ⟨List.mem_dedup.mp ((List.perm_insertionSort strLe _).mem_iff.mp h1), ?_⟩
    simpa using h2
  · rintro ⟨h1, h2⟩
    refine ⟨(List.perm_insertionSort strLe _).mem_iff.mpr (List.mem_dedup.mpr h1), ?_⟩
    simpa using h2

theorem mem_load_county_fips : ∀ (places : List (Option String)) (f : String),
    f ∈ load_county_fips places → ∃ y ∈ places, f = normFips y := by
  intro places
  induction places with
  | nil => intro f hf; cases hf
  | cons y ys ih =>
    intro f hf
    rw [load_county_fips] at hf
    by_cases h : normFips y = ""
    · rw [if_pos h] at hf
      obtain ⟨y2, hy2, hf2⟩ := ih f hf
      exact ⟨y2, List.mem_cons_of_mem _ hy2, hf2⟩
    · rw [if_neg h] at hf
      rcases List.mem_cons.mp hf with hf | hf
      · exact ⟨y, List.mem_cons_self _ _, hf⟩
      · obtain ⟨y2, hy2, hf2⟩ := ih f hf
        exact ⟨y2, List.mem_cons_of_mem _ hy2, hf2⟩

theorem lookup_mem {β : Type _} : ∀ (l : List (String × β)) (k : String) (v : β),
    l.lookup k = some v → (k, v) ∈ l := by
  intro l
  induction l with
  | nil => intro k v h; exact Option.noConfusion h
  | cons p rest ih =>
    intro k v h
    obtain ⟨k0, v0⟩ := p
    by_cases hk : k = k0
    · subst hk
      rw [lookupStr_cons_self] at h
      rw [← Option.some.inj h]
      exact List.mem_cons_self _ _
    · rw [lookupStr_cons_ne _ _ _ _ hk] at h
      exact List.mem_cons_of_mem _ (ih k v h)

theorem lookup_map_values {β γ : Type _} (g : β → γ) :
    ∀ (l : List (String × β)) (k : String),
      (l.map (fun p => (p.1, g p.2))).lookup k = (l.lookup k).map g := by
  intro l
  induction l with
  | nil => intro k; rfl
  | cons p rest ih =>
    intro k
    obtain ⟨k0, v0⟩ := p
    by_cases hk : k = k0
    · subst hk
      rw [List.map_cons]
      dsimp only
      rw [lookupStr_cons_self, lookupStr_cons_self]
      rfl
    · rw [List.map_cons]
      dsimp only
      rw [lookupStr_cons_ne _ _ _ _ hk, lookupStr_cons_ne _ _ _ _ hk, ih]

theorem isFixedPoint3_shape (A : List Char) (d1 d2 d3 : Char)
    (hA : ∀ c ∈ A, isDigitCh c = true) (hAne : A ≠ [])
    (h1 : isDigitCh d1 = true) (h2 : isDigitCh d2 = true) (h3 : isDigitCh d3 = true) :
    isFixedPoint3 (String.mk (A ++ '.' :: [d1, d2, d3])) = true ∧
    isFixedPoint3 (String.mk ('-' :: (A ++ '.' :: [d1, d2, d3]))) = true := by
  obtain ⟨c0, A2, hcons⟩ := List.exists_cons_of_ne_nil hAne
  have hc0 : isDigitCh c0 = true := hA c0 (hcons ▸ List.mem_cons_self _ _)
  obtain ⟨_, _, _, hminus, _, _, _, _, _, _, _⟩ := digit_props c0 hc0
  obtain ⟨htake, hdrop⟩ := takeWhile_append_not isDigitCh A '.' [d1, d2, d3] hA (by decide)
  have hAne2 : A.isEmpty = false := by
    rw [hcons]
    rfl
  constructor
  · simp only [isFixedPoint3]
    have hcond : ¬ ((String.mk (A ++ '.' :: [d1, d2, d3])).data.head? = some '-') := by
      rw [show (String.mk (A ++ '.' :: [d1, d2, d3])).data = A ++ '.' :: [d1, d2, d3] from rfl,
        hcons, List.cons_append, List.head?_cons]
      intro hcc
      exact hminus (Option.some.inj hcc)
    rw [if_neg hcond]
    rw [htake, hdrop, hAne2]
    simp [h1, h2, h3]
  · simp only [isFixedPoint3]
    rw [List.head?_cons, if_pos rfl, List.tail_cons, htake, hdrop, hAne2]
    simp [h1, h2, h3]

theorem isFixedPoint3_renderScaled (n : ℤ) : isFixedPoint3 (renderScaled n) = true := by
  have h10 : ∀ k : Nat, k % 10 < 10 := fun k => Nat.mod_lt _ (by norm_num)
  have hp : pad3 (n.natAbs % 1000) = [digitCh (n.natAbs % 1000 / 100 % 10),
      digitCh (n.natAbs % 1000 / 10 % 10), digitCh (n.natAbs % 1000 % 10)] := rfl
  obtain ⟨hshape1, hshape2⟩ := isFixedPoint3_shape (natToChars (n.natAbs / 1000))
    (digitCh (n.natAbs % 1000 / 100 % 10)) (digitCh (n.natAbs % 1000 / 10 % 10))
    (digitCh (n.natAbs % 1000 % 10)) (natToChars_digits _) (natToChars_ne_nil _)
    (isDigitCh_digitCh _ (h10 _)) (isDigitCh_digitCh _ (h10 _)) (isDigitCh_digitCh _ (h10 _))
  by_cases hn : n < 0
  · have hdata : renderScaled n = String.mk ('-' :: (natToChars (n.natAbs / 1000) ++
        '.' :: pad3 (n.natAbs % 1000))) := by
      rw [renderScaled, if_pos hn]
      simp [List.append_assoc]
    rw [hdata, hp]
    exact hshape2
  · have hdata : renderScaled n = String.mk (natToChars (n.natAbs / 1000) ++
        '.' :: pad3 (n.natAbs % 1000)) := by
      rw [renderScaled, if_neg hn]
      simp
    rw [hdata, hp]
    exact hshape1

theorem main_ok_fin_elim (rows : List Row) (places : List (Option String)) (d : PmData)
    (out : List (String × String))
    (hload : load_existing_pm rows = .ok d) (hfin : allFiniteB d = true)
    (hmain : Backfill.main rows places = .ok out) :
    mapExcept (fun fips =>
      match format_decimal (backfillValue (.fin (ratMean d.national_values)) d.pm_values
        (d.state_values.map (fun p => (p.1, PyDec.fin (ratMean p.2)))) fips) with
      | .error e => .error e
      | .ok fv => .ok (fips, fv)) (allFipsOf places) = .ok out := by
  obtain ⟨d2, s2, nm, sms, h1, h2, h3, h4, h5⟩ := main_ok_elim rows places out hmain
  rw [hload] at h1
  have hd : d = d2 := Except.ok.inj h1
  subst hd
  obtain ⟨hfn, hfs, _⟩ := allFiniteB_spec d hfin
  have hnne : d.national_values ≠ [] := (load_existing_pm_ok rows d hload).2
  have hs : s2 = .fin ((d.national_values.map PyDec.toRat).sum) := by
    rw [sumDec_fin _ hfn] at h2
    exact (Except.ok.inj h2).symm
  have hlen : ((d.national_values.length : ℚ)) ≠ 0 := by
    have hpos : 0 < d.national_values.length := List.length_pos.mpr hnne
    exact_mod_cast Nat.pos_iff_ne_zero.mp hpos
  have hnm : nm = .fin (ratMean d.national_values) := by
    rw [hs, div_fin _ _ hlen] at h3
    rw [ratMean]
    exact (Except.ok.inj h3).symm
  have hsne : ∀ p ∈ d.state_values, p.2 ≠ [] :=
    loadRows_state_ne rows emptyPm d (load_existing_pm_ok rows d hload).1
      (by intro p hp; cases hp)
  have hsms : sms = d.state_values.map (fun p => (p.1, PyDec.fin (ratMean p.2))) := by
    rw [compute_state_means_fin d.state_values hfs hsne] at h4
    exact (Except.ok.inj h4).symm
  rw [← hnm, ← hsms]
  exact h5

/-- Claim C10: `parse_decimal` succeeds on the non-finite numeric strings
`"NaN"`, `"Infinity"` and `"-Infinity"`, returning a non-finite value rather
than failing with the invalid-value error. -/
theorem claim_C10 :
    parse_decimal "NaN" = .ok .nan ∧
    parse_decimal "Infinity" = .ok .inf ∧
    parse_decimal "-Infinity" = .ok .negInf ∧
    PyDec.isFinite .nan = false ∧
    PyDec.isFinite .inf = false ∧
    PyDec.isFinite .negInf = false := by
  refine ⟨by decide, by decide, by decide, rfl, rfl, rfl⟩

/-- Claim C5: the spec says a row whose identifier field is empty after
trimming is skipped by the loader.  The code violates this: `''.zfill(5)`
is `"00000"`, so the emptiness test after normalization can never fire, and
a whitespace-only identifier row is retained under the key `"00000"`,
contributing its value to the `"00"` state list and to the national list. -/
theorem claim_C5_code_eval :
    load_existing_pm [{ fips := some "  ", pm25_mean_2016_2024 := some "7.000" }] =
      .ok { pm_values := [("00000", .fin 7)], state_values := [("00", [.fin 7])],
            national_values := [.fin 7] } ∧
    normFips (some "  ") = "00000" ∧ normFips none = "00000" := by
  refine ⟨by decide, by decide, by decide⟩

/-- Claim C8: on a finite value `format_decimal` returns the fixed-point
rendering of the half-up rounding at 3 fractional digits: the rendered
string parses back to exactly `round(1000·q)/1000`, the rounding is within
half a unit in the last place, the string has the shape
`[-]digits.ddd` with exactly three fractional digits, and every character is
a digit, a sign or the decimal point (so never scientific notation). -/
theorem claim_C8 (q : ℚ) :
    format_decimal (.fin q) = .ok (renderFixed3 q) ∧
    parse_decimal (renderFixed3 q) = .ok (.fin ((roundHalfUpZ (q * 1000) : ℚ) / 1000)) ∧
    |q * 1000 - (roundHalfUpZ (q * 1000) : ℚ)| ≤ 1 / 2 ∧
    isFixedPoint3 (renderFixed3 q) = true ∧
    ∀ c ∈ (renderFixed3 q).data, isDigitCh c = true ∨ c = '-' ∨ c = '.' := by
  refine ⟨rfl, ?_, roundHalfUpZ_dist _, ?_, ?_⟩
  · rw [renderFixed3, qMul_eq]
    exact parse_renderScaled _
  · rw [renderFixed3]
    exact isFixedPoint3_renderScaled _
  · rw [renderFixed3]
    exact renderScaled_chars _

/-- Claim C2: whenever `main` succeeds, the output has exactly the reference
identifiers as keys, in ascending order: the key list is the deduplicated sorted
reference set minus the sentinel `"00000"`, each retained reference identifier
appears exactly once, and `"00000"` never appears. -/
theorem claim_C2 (rows : List Row) (places : List (Option String))
    (out : List (String × String)) (hmain : Backfill.main rows places = .ok out) :
    out.map Prod.fst = allFipsOf places ∧
    List.Sorted (fun a b : String => a ≤ b) (out.map Prod.fst) ∧
    (∀ f, f ∈ load_county_fips places → f ≠ "00000" → (out.map Prod.fst).count f = 1) ∧
    "00000" ∉ out.map Prod.fst := by
  obtain ⟨d, s, nm, sms, h1, h2, h3, h4, h5⟩ := main_ok_elim rows places out hmain
  have hfst : out.map Prod.fst = allFipsOf places :=
    mapExcept_fst _ (outFn_fst nm d.pm_values sms) _ out h5
  refine ⟨hfst, ?_, ?_, ?_⟩
  · rw [hfst]
    exact allFipsOf_sorted places
  · intro f hf hne
    rw [hfst]
    exact List.count_eq_one_of_mem (allFipsOf_nodup places)
      ((mem_allFipsOf places f).mpr ⟨hf, hne⟩)
  · rw [hfst]
    intro hmem
    exact ((mem_allFipsOf places _).mp hmem).2 rfl

theorem claim_C2_witness :
    (([("01001", "1.000"), ("01003", "1.000")] : List (String × String)).map Prod.fst =
      allFipsOf [some "01003", some "01001", some "01003", some "00000"]) ∧
    List.Sorted (fun a b : String => a ≤ b)
      (([("01001", "1.000"), ("01003", "1.000")] : List (String × String)).map Prod.fst) ∧
    (∀ f, f ∈ load_county_fips [some "01003", some "01001", some "01003", some "00000"] →
      f ≠ "00000" →
      (([("01001", "1.000"), ("01003", "1.000")] : List (String × String)).map
        Prod.fst).count f = 1) ∧
    "00000" ∉ ([("01001", "1.000"), ("01003", "1.000")] : List (String × String)).map
      Prod.fst :=
  claim_C2 [{ fips := some "01001", pm25_mean_2016_2024 := some "1.000" }]
    [some "01003", some "01001", some "01003", some "00000"]
    [("01001", "1.000"), ("01003", "1.000")] (by decide)

/-- Claim C3: when the reference set contains `"00059"`, the successful run's
output carries the row `("00059", formatted national mean)` — the hard
override applies regardless of any direct measurement for `"00059"`. -/
theorem claim_C3 (rows : List Row) (places : List (Option String)) (d : PmData)
    (out : List (String × String))
    (hload : load_existing_pm rows = .ok d) (hfin : allFiniteB d = true)
    (hmain : Backfill.main rows places = .ok out)
    (hmem : "00059" ∈ load_county_fips places) :
    ("00059", renderFixed3 (ratMean d.national_values)) ∈ out := by
  have h5 := main_ok_fin_elim rows places d out hload hfin hmain
  have hfk : "00059" ∈ allFipsOf places := (mem_allFipsOf places _).mpr ⟨hmem, by decide⟩
  obtain ⟨b, hb, hfb⟩ := mapExcept_ok_forall _ (allFipsOf places) out h5 _ hfk
  have hbv : backfillValue (.fin (ratMean d.national_values)) d.pm_values
      (d.state_values.map (fun p => (p.1, PyDec.fin (ratMean p.2)))) "00059" =
      .fin (ratMean d.national_values) := by
    simp [backfillValue]
  rw [hbv] at hfb
  rw [show format_decimal (.fin (ratMean d.national_values)) =
    .ok (renderFixed3 (ratMean d.national_values)) from rfl] at hfb
  dsimp only at hfb
  rw [Except.ok.inj hfb]
  exact hb

theorem claim_C3_witness :
    ("00059", renderFixed3 (ratMean (PmData.national_values
      { pm_values := [("01001", .fin 1), ("02001", .fin 2)],
        state_values := [("01", [.fin 1]), ("02", [.fin 2])],
        national_values := [.fin 1, .fin 2] }))) ∈
      ([("00059", "1.500"), ("01001", "1.000"), ("01003", "1.000"), ("02001", "2.000")] :
        List (String × String)) :=
  claim_C3 [{ fips := some "01001", pm25_mean_2016_2024 := some "1.000" },
      { fips := some "02001", pm25_mean_2016_2024 := some "2.000" }]
    [some "01001", some "01003", some "02001", some "00059"]
    { pm_values := [("01001", .fin 1), ("02001", .fin 2)],
      state_values := [("01", [.fin 1]), ("02", [.fin 2])],
      national_values := [.fin 1, .fin 2] }
    [("00059", "1.500"), ("01001", "1.000"), ("01003", "1.000"), ("02001", "2.000")]
    (by decide) (by decide) (by decide) (by decide)

/-- Claim C1: in a successful run over an all-finite dataset, every output
row whose identifier is not `"00059"` carries the three-tier fallback value,
formatted: the direct measurement when the per-county map has one, else the
state mean when the identifier's 2-character state prefix has observed
values, else the national mean (`spec_expected_value` states exactly this
three-way case split). -/
theorem claim_C1 (rows : List Row) (places : List (Option String)) (d : PmData)
    (out : List (String × String)) (fips s : String)
    (hload : load_existing_pm rows = .ok d) (hfin : allFiniteB d = true)
    (hmain : Backfill.main rows places = .ok out)
    (hmem : (fips, s) ∈ out) (hne : fips ≠ "00059") :
    s = renderFixed3 (spec_expected_value d fips) := by
  have h5 := main_ok_fin_elim rows places d out hload hfin hmain
  have hfmt := out_mem_format _ _ _ _ out h5 (fips, s) hmem
  simp only [backfillValue, if_neg hne] at hfmt
  simp only [spec_expected_value]
  cases hpm : d.pm_values.lookup fips with
  | some v =>
    rw [hpm] at hfmt
    dsimp only at hfmt
    have hvfin := (allFiniteB_spec d hfin).2.2 (fips, v) (lookup_mem _ _ _ hpm)
    rw [isFinite_fin v hvfin] at hfmt
    rw [show format_decimal (.fin v.toRat) = .ok (renderFixed3 v.toRat) from rfl] at hfmt
    exact (Except.ok.inj hfmt).symm
  | none =>
    rw [hpm] at hfmt
    dsimp only at hfmt
    rw [lookup_map_values (fun vs => PyDec.fin (ratMean vs)) d.state_values
      (stateOf fips)] at hfmt
    cases hst : d.state_values.lookup (stateOf fips) with
    | some vs =>
      rw [hst] at hfmt
      dsimp only [Option.map] at hfmt
      rw [show format_decimal (.fin (ratMean vs)) = .ok (renderFixed3 (ratMean vs)) from
        rfl] at hfmt
      exact (Except.ok.inj hfmt).symm
    | none =>
      rw [hst] at hfmt
      dsimp only [Option.map] at hfmt
      rw [show format_decimal (.fin (ratMean d.national_values)) =
        .ok (renderFixed3 (ratMean d.national_values)) from rfl] at hfmt
      exact (Except.ok.inj hfmt).symm

theorem claim_C1_witness :
    "8.500" = renderFixed3 (spec_expected_value
      { pm_values := [("01001", .fin (mkRat 8123 1000)), ("01003", .fin (mkRat 8877 1000))],
        state_values := [("01", [.fin (mkRat 8123 1000), .fin (mkRat 8877 1000)])],
        national_values := [.fin (mkRat 8123 1000), .fin (mkRat 8877 1000)] } "01005") :=
  claim_C1 [{ fips := some "01001", pm25_mean_2016_2024 := some "8.123" },
      { fips := some "01003", pm25_mean_2016_2024 := some "8.877" }]
    [some "01001", some "01003", some "01005"]
    { pm_values := [("01001", .fin (mkRat 8123 1000)), ("01003", .fin (mkRat 8877 1000))],
      state_values := [("01", [.fin (mkRat 8123 1000), .fin (mkRat 8877 1000)])],
      national_values := [.fin (mkRat 8123 1000), .fin (mkRat 8877 1000)] }
    [("01001", "8.123"), ("01003", "8.877"), ("01005", "8.500")]
    "01005" "8.500" (by decide) (by decide) (by decide) (by decide) (by decide)

/-- Claim C6: the loader fails with the empty-dataset error exactly when the
row loop succeeds with an empty national list, and that failure propagates
out of `main` before any aggregate is computed or any output row is built. -/
theorem claim_C6 (rows : List Row) (places : List (Option String)) :
    (load_existing_pm rows = .error .emptyDataset ↔
      ∃ d, loadRows rows emptyPm = .ok d ∧ d.national_values = []) ∧
    (load_existing_pm rows = .error .emptyDataset →
      Backfill.main rows places = .error .emptyDataset) := by
  constructor
  · constructor
    · intro h
      rw [load_existing_pm] at h
      cases hl : loadRows rows emptyPm with
      | error e =>
        rw [hl] at h
        obtain ⟨raw, hraw⟩ := loadRows_error_invalid rows emptyPm e hl
        rw [hraw] at h
        exact Err.noConfusion (Except.error.inj h)
      | ok d =>
        rw [hl] at h
        dsimp only at h
        by_cases hn : d.national_values = []
        · exact ⟨d, rfl, hn⟩
        · rw [if_neg hn] at h
          exact Except.noConfusion h
    · rintro ⟨d, hl, hn⟩
      rw [load_existing_pm, hl]
      dsimp only
      rw [if_pos hn]
  · intro h
    rw [Backfill.main, h]

theorem claim_C6_witness :
    (load_existing_pm [{ fips := some "01001", pm25_mean_2016_2024 := none }] =
        .error .emptyDataset ↔
      ∃ d, loadRows [{ fips := some "01001", pm25_mean_2016_2024 := none }] emptyPm =
        .ok d ∧ d.national_values = []) ∧
    (load_existing_pm [{ fips := some "01001", pm25_mean_2016_2024 := none }] =
        .error .emptyDataset →
      Backfill.main [{ fips := some "01001", pm25_mean_2016_2024 := none }] [some "01001"] =
        .error .emptyDataset) :=
  claim_C6 [{ fips := some "01001", pm25_mean_2016_2024 := none }] [some "01001"]

/-- Claim C7: a retained row whose value field holds malformed numeric text
makes the whole run abort with the invalid-value error — `main` returns an
error, so no output list (and hence no output file content) is produced. -/
theorem claim_C7 (rows : List Row) (places : List (Option String)) (row : Row)
    (raw : String) (e : Err)
    (hmem : row ∈ rows) (hval : row.pm25_mean_2016_2024 = some raw) (hne : raw ≠ "")
    (hbad : parse_decimal raw = .error e) :
    ∃ msg, Backfill.main rows places = .error (.invalidValue msg) := by
  have hret : retainedValue row = some raw := by
    rw [retainedValue, if_neg (normFips_ne_empty row.fips), hval]
    dsimp only
    rw [if_neg hne]
  have hraw_mem : raw ∈ retainedRaw rows := List.mem_filterMap.mpr ⟨row, hmem, hret⟩
  cases hl : loadRows rows emptyPm with
  | error e2 =>
    obtain ⟨msg, hmsg⟩ := loadRows_error_invalid rows emptyPm e2 hl
    refine ⟨msg, ?_⟩
    rw [Backfill.main, load_existing_pm, hl, hmsg]
  | ok d =>
    exfalso
    obtain ⟨vals, hmap, _⟩ := loadRows_national rows emptyPm d hl
    obtain ⟨v, _, hpv⟩ := mapExcept_ok_forall parse_decimal _ vals hmap raw hraw_mem
    rw [hbad] at hpv
    exact Except.noConfusion hpv

theorem claim_C7_witness :
    ∃ msg, Backfill.main [{ fips := some "01001", pm25_mean_2016_2024 := some "abc" }]
      [some "01001"] = .error (.invalidValue msg) :=
  claim_C7 [{ fips := some "01001", pm25_mean_2016_2024 := some "abc" }] [some "01001"]
    { fips := some "01001", pm25_mean_2016_2024 := some "abc" } "abc"
    (.invalidValue "abc") (by decide) rfl (by decide) (by decide)

/-- Claim C9: on a successful load, the national list holds the parsed value
of every retained row in file order (duplicates included), each state's list
holds the parsed values of exactly its retained rows in order (duplicates
included), and the per-county map holds a value for `f` exactly when some
retained row is keyed `f`, namely the parse of the last such row — last
write wins. -/
theorem claim_C9 (rows : List Row) (d : PmData) (h : load_existing_pm rows = .ok d) :
    mapExcept parse_decimal (retainedRaw rows) = .ok d.national_values ∧
    (∀ st, mapExcept parse_decimal (retainedRawState st rows) =
      .ok ((d.state_values.lookup st).getD [])) ∧
    (∀ f v, d.pm_values.lookup f = some v ↔
      ∃ raw, (retainedRawFor f rows).getLast? = some raw ∧ parse_decimal raw = .ok v) := by
  have hl := (load_existing_pm_ok rows d h).1
  refine ⟨?_, ?_, ?_⟩
  · obtain ⟨vals, hmap, hnat⟩ := loadRows_national rows emptyPm d hl
    rw [hnat, show emptyPm.national_values = [] from rfl, List.nil_append]
    exact hmap
  · intro st
    obtain ⟨vals, hmap, hst⟩ := loadRows_state st rows emptyPm d hl
    rw [hst, show (emptyPm.state_values.lookup st).getD [] = [] from rfl, List.nil_append]
    exact hmap
  · intro f v
    obtain ⟨ih1, ih2⟩ := loadRows_pm f rows emptyPm d hl
    constructor
    · intro hlk
      cases hlast : (retainedRawFor f rows).getLast? with
      | none =>
        rw [ih2 hlast, show emptyPm.pm_values.lookup f = none from rfl] at hlk
        exact Option.noConfusion hlk
      | some raw =>
        obtain ⟨v2, hp2, hlk2⟩ := ih1 raw hlast
        rw [hlk] at hlk2
        exact ⟨raw, rfl, by rw [hp2, Option.some.inj hlk2]⟩
    · rintro ⟨raw, hlast, hpraw⟩
      obtain ⟨v2, hp2, hlk2⟩ := ih1 raw hlast
      rw [hpraw] at hp2
      rw [hlk2, Except.ok.inj hp2]

theorem claim_C9_witness :
    (mapExcept parse_decimal (retainedRaw
        [{ fips := some "01001", pm25_mean_2016_2024 := some "1.000" },
         { fips := some "01001", pm25_mean_2016_2024 := some "3.000" }]) =
      .ok (PmData.national_values
        { pm_values := [("01001", .fin 3)], state_values := [("01", [.fin 1, .fin 3])],
          national_values := [.fin 1, .fin 3] })) ∧
    (∀ st, mapExcept parse_decimal (retainedRawState st
        [{ fips := some "01001", pm25_mean_2016_2024 := some "1.000" },
         { fips := some "01001", pm25_mean_2016_2024 := some "3.000" }]) =
      .ok (((PmData.state_values
        { pm_values := [("01001", .fin 3)], state_values := [("01", [.fin 1, .fin 3])],
          national_values := [.fin 1, .fin 3] }).lookup st).getD [])) ∧
    (∀ f v, (PmData.pm_values
        { pm_values := [("01001", .fin 3)], state_values := [("01", [.fin 1, .fin 3])],
          national_values := [.fin 1, .fin 3] }).lookup f = some v ↔
      ∃ raw, (retainedRawFor f
        [{ fips := some "01001", pm25_mean_2016_2024 := some "1.000" },
         { fips := some "01001", pm25_mean_2016_2024 := some "3.000" }]).getLast? =
          some raw ∧ parse_decimal raw = .ok v) :=
  claim_C9 [{ fips := some "01001", pm25_mean_2016_2024 := some "1.000" },
      { fips := some "01001", pm25_mean_2016_2024 := some "3.000" }]
    { pm_values := [("01001", .fin 3)], state_values := [("01", [.fin 1, .fin 3])],
      national_values := [.fin 1, .fin 3] } (by decide)

theorem retainedRawFor_cons_none (f : String) (r : Row) (rs : List Row)
    (h : (if normFips r.fips = f then retainedValue r else none) = none) :
    retainedRawFor f (r :: rs) = retainedRawFor f rs := by
  simp only [retainedRawFor]
  exact List.filterMap_cons_none h

theorem retainedRawFor_cons_some (f : String) (r : Row) (rs : List Row) (raw : String)
    (h : (if normFips r.fips = f then retainedValue r else none) = some raw) :
    retainedRawFor f (r :: rs) = raw :: retainedRawFor f rs := by
  simp only [retainedRawFor]
  exact List.filterMap_cons_some h

theorem retainedRawFor_rowsOfOutput_nil :
    ∀ (out : List (String × String)) (f : String),
      (∀ p ∈ out, normFips (some p.1) = p.1) →
      f ∉ out.map Prod.fst →
      retainedRawFor f (rowsOfOutput out) = [] := by
  intro out
  induction out with
  | nil => intro f _ _; rfl
  | cons p rest ih =>
    intro f hfix hnm
    obtain ⟨g, w⟩ := p
    have hg : normFips (some g) = g := hfix (g, w) (List.mem_cons_self _ _)
    have hgne : ¬ g = f := by
      intro hc
      exact hnm (by rw [List.map_cons, hc]; exact List.mem_cons_self _ _)
    rw [show rowsOfOutput ((g, w) :: rest) =
      { fips := some g, pm25_mean_2016_2024 := some w } :: rowsOfOutput rest from rfl]
    rw [retainedRawFor_cons_none f _ _ (by
      rw [show ({ fips := some g, pm25_mean_2016_2024 := some w } : Row).fips =
        some g from rfl, hg, if_neg hgne])]
    exact ih f (fun p2 hp2 => hfix p2 (List.mem_cons_of_mem _ hp2))
      (fun hc => hnm (by rw [List.map_cons]; exact List.mem_cons_of_mem _ hc))

theorem retainedRawFor_rowsOfOutput :
    ∀ (out : List (String × String)) (f v : String),
      (∀ p ∈ out, normFips (some p.1) = p.1) →
      (out.map Prod.fst).Nodup →
      (f, v) ∈ out → v ≠ "" →
      retainedRawFor f (rowsOfOutput out) = [v] := by
  intro out
  induction out with
  | nil => intro f v _ _ hmem _; cases hmem
  | cons p rest ih =>
    intro f v hfix hnd hmem hvne
    obtain ⟨g, w⟩ := p
    have hg : normFips (some g) = g := hfix (g, w) (List.mem_cons_self _ _)
    rw [List.map_cons, List.nodup_cons] at hnd
    rw [show rowsOfOutput ((g, w) :: rest) =
      { fips := some g, pm25_mean_2016_2024 := some w } :: rowsOfOutput rest from rfl]
    rcases List.mem_cons.mp hmem with hmem1 | hmem1
    · have hf : f = g := congrArg Prod.fst hmem1
      have hv : v = w := congrArg Prod.snd hmem1
      subst hf
      subst hv
      rw [retainedRawFor_cons_some f _ _ v (by
        rw [show ({ fips := some f, pm25_mean_2016_2024 := some v } : Row).fips =
          some f from rfl, hg, if_pos rfl, retainedValue]
        rw [show ({ fips := some f, pm25_mean_2016_2024 := some v } : Row).fips =
          some f from rfl, hg]
        rw [if_neg (by
          intro hc
          exact normFips_ne_empty (some f) (by rw [hg]; exact hc))]
        dsimp only
        rw [if_neg hvne])]
      rw [retainedRawFor_rowsOfOutput_nil rest f
        (fun p2 hp2 => hfix p2 (List.mem_cons_of_mem _ hp2)) hnd.1]
    · have hfr : f ∈ rest.map Prod.fst := by
        exact List.mem_map.mpr ⟨(f, v), hmem1, rfl⟩
      have hgne : ¬ g = f := by
        intro hc
        exact hnd.1 (hc ▸ hfr)
      rw [retainedRawFor_cons_none f _ _ (by
        rw [show ({ fips := some g, pm25_mean_2016_2024 := some w } : Row).fips =
          some g from rfl, hg, if_neg hgne])]
      exact ih f v (fun p2 hp2 => hfix p2 (List.mem_cons_of_mem _ hp2)) hnd.2 hmem1 hvne

/-- Claim C4 (counterexample to byte-for-byte idempotence): with two observed
counties in different states and `"00059"` among the reference counties, the
first run writes the national mean `1.500` for `"00059"`; re-running on that
output file re-reads the backfilled rows (including `"00059"` itself) into the
aggregates, so the recomputed national mean shifts to `1.375` and the second
output file differs from the first. -/
theorem claim_C4_counterexample :
    ∃ out1 out2,
      Backfill.main [{ fips := some "01001", pm25_mean_2016_2024 := some "1.000" },
          { fips := some "02001", pm25_mean_2016_2024 := some "2.000" }]
        [some "01001", some "01003", some "02001", some "00059"] = .ok out1 ∧
      Backfill.main (rowsOfOutput out1)
        [some "01001", some "01003", some "02001", some "00059"] = .ok out2 ∧
      serializeOutput out2 ≠ serializeOutput out1 :=
  ⟨[("00059", "1.500"), ("01001", "1.000"), ("01003", "1.000"), ("02001", "2.000")],
   [("00059", "1.375"), ("01001", "1.000"), ("01003", "1.000"), ("02001", "2.000")],
   by decide, by decide, by decide⟩

/-- Claim C4 (amended): a second run over the first run's output has the same
identifier column, and every row other than the `"00059"` override row is
reproduced byte for byte — only the `"00059"` row's value may move, because
its overridden value re-enters the aggregates when the output is re-read. -/
theorem claim_C4_amended (rows : List Row) (places : List (Option String))
    (out1 out2 : List (String × String))
    (h1 : Backfill.main rows places = .ok out1)
    (h2 : Backfill.main (rowsOfOutput out1) places = .ok out2) :
    out2.map Prod.fst = out1.map Prod.fst ∧
    ∀ f v, (f, v) ∈ out1 → f ≠ "00059" → (f, v) ∈ out2 := by
  obtain ⟨d1, s1, nm1, sms1, hl1, _, _, _, hm1⟩ := main_ok_elim rows places out1 h1
  obtain ⟨d2, s2, nm2, sms2, hl2e, _, _, _, hm2⟩ :=
    main_ok_elim (rowsOfOutput out1) places out2 h2
  have hfst1 : out1.map Prod.fst = allFipsOf places :=
    mapExcept_fst _ (outFn_fst nm1 d1.pm_values sms1) _ out1 hm1
  have hfst2 : out2.map Prod.fst = allFipsOf places :=
    mapExcept_fst _ (outFn_fst nm2 d2.pm_values sms2) _ out2 hm2
  refine ⟨by rw [hfst1, hfst2], ?_⟩
  intro f v hmem hne
  have hfk : f ∈ allFipsOf places := by
    rw [← hfst1]
    exact List.mem_map.mpr ⟨(f, v), hmem, rfl⟩
  have hkeysfix : ∀ p ∈ out1, normFips (some p.1) = p.1 := by
    intro p hp
    have hpk : p.1 ∈ allFipsOf places := by
      rw [← hfst1]
      exact List.mem_map.mpr ⟨p, hp, rfl⟩
    obtain ⟨hmm, _⟩ := (mem_allFipsOf places p.1).mp hpk
    obtain ⟨y, _, hy⟩ := mem_load_county_fips places p.1 hmm
    rw [hy, normFips_idem]
  have hnd1 : (out1.map Prod.fst).Nodup := by
    rw [hfst1]
    exact allFipsOf_nodup places
  have hfmt1 := out_mem_format nm1 d1.pm_values sms1 _ out1 hm1 (f, v) hmem
  have hvne : v ≠ "" := format_ok_ne_empty _ _ hfmt1
  obtain ⟨w, hparse, hwfmt⟩ := format_roundtrip _ _ hfmt1
  have hlast : (retainedRawFor f (rowsOfOutput out1)).getLast? = some v := by
    rw [retainedRawFor_rowsOfOutput out1 f v hkeysfix hnd1 hmem hvne]
    rfl
  have hl2 := (load_existing_pm_ok _ d2 hl2e).1
  obtain ⟨ihp, _⟩ := loadRows_pm f (rowsOfOutput out1) emptyPm d2 hl2
  obtain ⟨v2, hp2, hlk2⟩ := ihp v hlast
  have hw : v2 = w := by
    rw [hparse] at hp2
    exact (Except.ok.inj hp2).symm
  obtain ⟨b, hb, hfb⟩ := mapExcept_ok_forall _ (allFipsOf places) out2 hm2 f hfk
  have hbv : backfillValue nm2 d2.pm_values sms2 f = w := by
    simp only [backfillValue, if_neg hne]
    rw [hlk2]
    dsimp only
    exact hw
  rw [hbv, hwfmt] at hfb
  dsimp only at hfb
  rw [show (f, v) = b from Except.ok.inj hfb]
  exact hb

theorem claim_C4_amended_witness :
    (([("00059", "1.375"), ("01001", "1.000"), ("01003", "1.000"), ("02001", "2.000")] :
        List (String × String)).map Prod.fst =
      ([("00059", "1.500"), ("01001", "1.000"), ("01003", "1.000"), ("02001", "2.000")] :
        List (String × String)).map Prod.fst) ∧
    (∀ f v, (f, v) ∈ ([("00059", "1.500"), ("01001", "1.000"), ("01003", "1.000"),
        ("02001", "2.000")] : List (String × String)) → f ≠ "00059" →
      (f, v) ∈ ([("00059", "1.375"), ("01001", "1.000"), ("01003", "1.000"),
        ("02001", "2.000")] : List (String × String))) :=
  claim_C4_amended [{ fips := some "01001", pm25_mean_2016_2024 := some "1.000" },
      { fips := some "02001", pm25_mean_2016_2024 := some "2.000" }]
    [some "01001", some "01003", some "02001", some "00059"]
    [("00059", "1.500"), ("01001", "1.000"), ("01003", "1.000"), ("02001", "2.000")]
    [("00059", "1.375"), ("01001", "1.000"), ("01003", "1.000"), ("02001", "2.000")]
    (by decide) (by decide)
